import Mathlib

/-!
# telegraphcli: the Markdown converter of `pkg/markdown/markdown.go`

A shallow embedding of `skipYAMLFrontMatter`, `markdownToNodes` and `Parse`, of
the request `page delete` builds, of `retry` and of `GetToken`, and the theorems
that settle the statements of the specification about them.

Go strings and byte slices are modelled as lists of code points (`Str`).  The
only separators and prefixes the program searches for are ASCII, so searching
the code points of a valid UTF-8 text agrees with searching its bytes.
-/

namespace Telegraph

/-- A Go `string` (or `[]byte` holding text), as its sequence of code points. -/
abbrev Str := List Char

/-! ## The Go standard library functions the program calls -/

/-- Go `unicode.IsSpace`: the Latin-1 spaces are listed one by one, the others
are the code points with the `White_Space` property. -/
def unicode.IsSpace (c : Char) : Bool :=
  let r := c.toNat
  if r ≤ 0xFF then
    r == 0x09 || r == 0x0A || r == 0x0B || r == 0x0C || r == 0x0D || r == 0x20
      || r == 0x85 || r == 0xA0
  else
    r == 0x1680 || (0x2000 ≤ r && r ≤ 0x200A) || r == 0x2028 || r == 0x2029
      || r == 0x202F || r == 0x205F || r == 0x3000

/-- Go `strings.HasPrefix(s, p)`. -/
def strings.HasPrefix (s p : Str) : Bool := p.isPrefixOf s

/-- Go `strings.TrimPrefix(s, p)`: `s` without the leading `p`, or `s` itself
when it does not start with `p`. -/
def strings.TrimPrefix (s p : Str) : Str :=
  if strings.HasPrefix s p then s.drop p.length else s

/-- Go `strings.TrimSpace(s)`: all leading and trailing white space removed. -/
def strings.TrimSpace (s : Str) : Str :=
  (s.dropWhile unicode.IsSpace).rdropWhile unicode.IsSpace

/-- Go `strings.Join(elems, sep)`. -/
def strings.Join : List Str → Str → Str
  | [], _ => []
  | [a], _ => a
  | a :: b :: rest, sep => a ++ sep ++ strings.Join (b :: rest) sep

/-- Go `strings.Index(s, sep)`: the position of the first occurrence of `sep`
in `s`, `none` standing for Go's `-1`. -/
def strings.Index : Str → Str → Option Nat
  | [], sep => if sep.isEmpty then some 0 else none
  | c :: cs, sep =>
    if strings.HasPrefix (c :: cs) sep then some 0
    else (strings.Index cs sep).map (· + 1)

/-- Go `strings.SplitN(s, sep, n)` for a non-empty `sep` and `n ≥ 0`: cut at the
first `n - 1` occurrences of `sep`; the last piece is the unsplit rest. -/
def strings.SplitN (s sep : Str) : Nat → List Str
  | 0 => []
  | 1 => [s]
  | n + 2 =>
    match strings.Index s sep with
    | none => [s]
    | some m => s.take m :: strings.SplitN (s.drop (m + sep.length)) sep (n + 1)

/-- Go `strings.Split(s, sep)` for a non-empty `sep`: `SplitN` with a count that
is never reached (a string of length `k` holds at most `k` separators). -/
def strings.Split (s sep : Str) : List Str :=
  strings.SplitN s sep (s.length + 1)

/-- Go `bytes.HasPrefix`, on text. -/
abbrev bytes.HasPrefix (s p : Str) : Bool := strings.HasPrefix s p

/-- Go `bytes.SplitN`, on text. -/
abbrev bytes.SplitN (s sep : Str) (n : Nat) : List Str := strings.SplitN s sep n

/-- Go's `error` value, as its message. -/
structure GoError where
  msg : Str

/-! ## The content model of the telegraph library -/

/-- Modelled from the spec: the tag atoms of `golang.org/x/net/html/atom` a page
can mention, that is the tags the telegraph API allows and the two headings it
lacks (the package is not part of the repository). -/
inductive Atom where
  | A | Aside | B | Blockquote | Br | Code | Em | Figcaption | Figure
  | H1 | H2 | H3 | H4 | Hr | I | Iframe | Img | Li | Ol | P | Pre | S | Strong
  | U | Ul | Video
  deriving DecidableEq, Repr

mutual
/-- Modelled from the spec: the library type `telegraph.Node` (the library is
not part of the repository): a text field and a possibly nil element. -/
inductive Node where
  | mk (Text : Str) (Element : Option NodeElement) : Node
/-- Modelled from the spec: the library type `telegraph.NodeElement`: a tag and
the ordered children.  The program never sets an attribute. -/
inductive NodeElement where
  | mk (Tag : Atom) (Children : List Node) : NodeElement
end

/-- Field `Text` of a node. -/
def Node.Text : Node → Str
  | .mk t _ => t

/-- Field `Element` of a node. -/
def Node.Element : Node → Option NodeElement
  | .mk _ e => e

/-- Field `Tag` of an element. -/
def NodeElement.Tag : NodeElement → Atom
  | .mk t _ => t

/-- Field `Children` of an element. -/
def NodeElement.Children : NodeElement → List Node
  | .mk _ ch => ch

/-- Modelled from the spec: `telegraph.NewNodeElement(tag)`, an element of
that tag with no children yet. -/
def NewNodeElement (tag : Atom) : NodeElement := .mk tag []

/-- The assignment `e.Children = append(e.Children, n)`. -/
def NodeElement.appendChild (e : NodeElement) (n : Node) : NodeElement :=
  .mk e.Tag (e.Children ++ [n])

/-- The literal `telegraph.Node{Text: text}`. -/
def textNode (text : Str) : Node := .mk text none

/-- The literal `telegraph.Node{Element: e}`. -/
def elemNode (e : NodeElement) : Node := .mk [] (some e)

/-- The test at `nodes[len(nodes)-1]`: the element is not nil and its tag's
atom is `atom.Ul`. -/
def Node.isUl (n : Node) : Bool :=
  match n.Element with
  | some e => e.Tag == Atom.Ul
  | none => false

/-- The assignment `n.Element.Children = append(n.Element.Children, c)`.  The
program makes it only under `isUl`, where the element is not nil. -/
def Node.appendChild (n c : Node) : Node :=
  match n.Element with
  | some e => .mk n.Text (some (e.appendChild c))
  | none => n

/-! ## `pkg/markdown/markdown.go` -/

/-- Function `skipYAMLFrontMatter`: removes YAML front matter from markdown
content. -/
def skipYAMLFrontMatter (content : Str) : Str :=
  if !bytes.HasPrefix content "---\n".toList then content
  else
    match bytes.SplitN (content.drop 4) "---\n".toList 2 with
    | [_, rest] => rest
    | _ => content

/-- The local variables of `markdownToNodes` that live across the loop. -/
structure State where
  nodes : List Node
  currentParagraph : List Str
  inCodeBlock : Bool
  codeContent : List Str
  codeLanguage : Str

/-- The variables before the first line is read. -/
def State.init : State :=
  { nodes := [], currentParagraph := [], inCodeBlock := false, codeContent := [],
    codeLanguage := [] }

/-- The closure `flushParagraph` of `markdownToNodes`. -/
def flushParagraph (st : State) : State :=
  if st.currentParagraph.length > 0 then
    let text := strings.TrimSpace (strings.Join st.currentParagraph " ".toList)
    if text ≠ [] then
      let pElem := (NewNodeElement Atom.P).appendChild (textNode text)
      { st with nodes := st.nodes ++ [elemNode pElem], currentParagraph := [] }
    else
      { st with currentParagraph := [] }
  else st

/-- The element a closing fence emits: `pre` holding `code` holding the text. -/
def codeBlockNode (code : Str) : Node :=
  let codeElem := (NewNodeElement Atom.Code).appendChild (textNode code)
  let preElem := (NewNodeElement Atom.Pre).appendChild (elemNode codeElem)
  elemNode preElem

/-- The element a heading line emits: the heading tag holding the text. -/
def headingNode (tag : Atom) (text : Str) : Node :=
  elemNode ((NewNodeElement tag).appendChild (textNode text))

/-- The text the list branch computes from its line. -/
def listItemText (line : Str) : Str :=
  strings.TrimSpace
    (strings.TrimPrefix (strings.TrimPrefix line "- ".toList) "* ".toList)

/-- The node `liNode` of the list branch. -/
def liNode (text : Str) : Node :=
  elemNode ((NewNodeElement Atom.Li).appendChild (textNode text))

/-- The variable `isUl` of the list branch: there is a last node and it is an
unordered list. -/
def lastIsUl (nodes : List Node) : Bool :=
  match nodes.getLast? with
  | some n => n.isUl
  | none => false

/-- The assignment to `nodes[len(nodes)-1].Element.Children`. -/
def appendToLast (nodes : List Node) (c : Node) : List Node :=
  match nodes.getLast? with
  | some n => nodes.dropLast ++ [n.appendChild c]
  | none => nodes

/-- One turn of the loop `for _, line := range lines` of `markdownToNodes`. -/
def processLine (st : State) (line : Str) : State :=
  if strings.HasPrefix line "```".toList then
    if st.inCodeBlock then
      let code := strings.Join st.codeContent "\n".toList
      { st with inCodeBlock := false, nodes := st.nodes ++ [codeBlockNode code],
                codeContent := [], codeLanguage := [] }
    else
      let st := flushParagraph st
      { st with inCodeBlock := true,
                codeLanguage := strings.TrimSpace (strings.TrimPrefix line "```".toList) }
  else if st.inCodeBlock then
    { st with codeContent := st.codeContent ++ [line] }
  else if strings.HasPrefix line "# ".toList then
    let st := flushParagraph st
    let text := strings.TrimSpace (strings.TrimPrefix line "# ".toList)
    { st with nodes := st.nodes ++ [headingNode Atom.H3 text] }
  else if strings.HasPrefix line "## ".toList then
    let st := flushParagraph st
    let text := strings.TrimSpace (strings.TrimPrefix line "## ".toList)
    { st with nodes := st.nodes ++ [headingNode Atom.H4 text] }
  else if strings.HasPrefix line "### ".toList then
    let st := flushParagraph st
    let text := strings.TrimSpace (strings.TrimPrefix line "### ".toList)
    { st with nodes := st.nodes ++ [headingNode Atom.H4 text] }
  else if strings.HasPrefix line "- ".toList || strings.HasPrefix line "* ".toList then
    let st := flushParagraph st
    let li := liNode (listItemText line)
    if lastIsUl st.nodes then
      { st with nodes := appendToLast st.nodes li }
    else
      let ulElem := (NewNodeElement Atom.Ul).appendChild li
      { st with nodes := st.nodes ++ [elemNode ulElem] }
  else if strings.TrimSpace line = [] then
    flushParagraph st
  else
    { st with currentParagraph := st.currentParagraph ++ [line] }

/-- Function `markdownToNodes`: converts markdown content to telegraph nodes.
The second component is the returned `error`, `none` for `nil`. -/
def markdownToNodes (content : Str) : List Node × Option GoError :=
  let lines := strings.Split content "\n".toList
  let st := lines.foldl processLine State.init
  let st := flushParagraph st
  (st.nodes, none)

/-! ## Vocabulary of the statements -/

mutual
/-- All tags of a node, of its children and of their descendants, outermost
first. -/
def Node.tags : Node → List Atom
  | .mk _ none => []
  | .mk _ (some e) => e.tags
/-- All tags of an element and of its descendants. -/
def NodeElement.tags : NodeElement → List Atom
  | .mk t ch => t :: tagsList ch
/-- All tags of a sequence of nodes and of their descendants. -/
def tagsList : List Node → List Atom
  | [] => []
  | n :: ns => n.tags ++ tagsList ns
end

/-- The condition of the list branch: the line starts with `- ` or `* `. -/
def isListLine (line : Str) : Bool :=
  strings.HasPrefix line "- ".toList || strings.HasPrefix line "* ".toList

/-- A blank line: empty, or white space only. -/
def isBlank (line : Str) : Bool := line.all unicode.IsSpace

/-- A string that holds no newline: one line of the input. -/
def newlineFree (s : Str) : Bool := !s.contains '\n'

/-- A plain line: not blank, and starting with none of the markers the loop
tests for (fence, the three headings, the two list markers). -/
def isPlainLine (line : Str) : Bool :=
  !isBlank line && !strings.HasPrefix line "```".toList
    && !strings.HasPrefix line "# ".toList && !strings.HasPrefix line "## ".toList
    && !strings.HasPrefix line "### ".toList
    && !strings.HasPrefix line "- ".toList && !strings.HasPrefix line "* ".toList

/-- The tags `markdownToNodes` builds elements with. -/
def producedTags : List Atom :=
  [Atom.P, Atom.H3, Atom.H4, Atom.Ul, Atom.Li, Atom.Pre, Atom.Code]

/-- The search the specification words for the closing marker: the text
strictly after the first line of `s` that is exactly `---` followed by a
newline, if there is such a line.  `atStart` tells whether `s` begins at the
start of a line. -/
def specAfterMarkerLine : Bool → Str → Option Str
  | _, [] => none
  | atStart, c :: cs =>
    if atStart && strings.HasPrefix (c :: cs) "---\n".toList then some (cs.drop 3)
    else specAfterMarkerLine (c == '\n') cs

/-- Every tag in a sequence of nodes, at every depth, is one the converter
builds. -/
def TagsOk (nodes : List Node) : Prop := ∀ a ∈ tagsList nodes, a ∈ producedTags

/-- Function `Parse`: parses a markdown file and returns the content as
telegraph nodes.  `ReadFile` is `os.ReadFile` on the file system of the run; a
nil slice of nodes is `none`. -/
def Parse (ReadFile : Str → Except GoError Str) (filePath : Str) :
    Option (List Node) × Option GoError :=
  match ReadFile filePath with
  | .error err => (none, some ⟨"failed to read markdown file: ".toList ++ err.msg⟩)
  | .ok content =>
    let content := skipYAMLFrontMatter content
    match markdownToNodes content with
    | (_, some err) => (none, some err)
    | (nodes, none) => (some nodes, none)

/-- The condition of the fence branch: the line starts with three backticks. -/
def isFenceLine (line : Str) : Bool := strings.HasPrefix line "```".toList

mutual
/-- A node and all its descendants, the node first. -/
def Node.subnodes : Node → List Node
  | .mk t none => [.mk t none]
  | .mk t (some e) => .mk t (some e) :: e.subnodes
/-- The descendants of an element. -/
def NodeElement.subnodes : NodeElement → List Node
  | .mk _ ch => subnodesList ch
/-- The nodes of a sequence and all their descendants: every node, at every
depth. -/
def subnodesList : List Node → List Node
  | [] => []
  | n :: ns => n.subnodes ++ subnodesList ns
end

/-- A text without leading and without trailing white space. -/
def trimmed (s : Str) : Prop :=
  (∀ c ∈ s.head?, unicode.IsSpace c = false) ∧ (∀ c ∈ s.getLast?, unicode.IsSpace c = false)

/-- The forms of the top-level nodes the loop of `markdownToNodes` builds: a
paragraph with a non-empty trimmed text, a heading, a code block, or an
unordered list with at least one item, all of them list items. -/
def TopShape (n : Node) : Prop :=
  (∃ text, n = headingNode Atom.P text ∧ text ≠ [] ∧ trimmed text)
  ∨ (∃ text, n = headingNode Atom.H3 text)
  ∨ (∃ text, n = headingNode Atom.H4 text)
  ∨ (∃ code, n = codeBlockNode code)
  ∨ (∃ items, n = Node.mk [] (some (NodeElement.mk Atom.Ul items)) ∧ items ≠ []
      ∧ ∀ c ∈ items, ∃ t, c = liNode t)

/-- The forms of the nodes below the top level: a text leaf, a list item, or
the `code` element of a code block. -/
def InnerShape (n : Node) : Prop :=
  (∃ t, n = textNode t) ∨ (∃ t, n = liNode t)
  ∨ (∃ code, n = elemNode ((NewNodeElement Atom.Code).appendChild (textNode code)))

/-- No two neighbours of a sequence of nodes are both unordered lists. -/
def NoAdjacentUl (nodes : List Node) : Prop :=
  List.Chain' (fun a b => ¬(a.isUl = true ∧ b.isUl = true)) nodes

/-- A text leaf: a node without an element. -/
def Node.isTextLeaf (n : Node) : Bool := n.Element.isNone

/-- An element node: a node with an element and an empty text. -/
def Node.isElementNode (n : Node) : Bool := n.Element.isSome && n.Text.isEmpty

/-- The condition of the three heading branches: the line starts with `# `,
`## ` or `### `. -/
def isHeadingLine (line : Str) : Bool :=
  strings.HasPrefix line "# ".toList || strings.HasPrefix line "## ".toList
    || strings.HasPrefix line "### ".toList

/-- The node the heading branches emit for a heading line: `h3` for `# `, `h4`
for `## ` and for `### `, with the trimmed rest of the line as text. -/
def headingLineNode (line : Str) : Node :=
  if strings.HasPrefix line "# ".toList then
    headingNode Atom.H3 (strings.TrimSpace (strings.TrimPrefix line "# ".toList))
  else if strings.HasPrefix line "## ".toList then
    headingNode Atom.H4 (strings.TrimSpace (strings.TrimPrefix line "## ".toList))
  else
    headingNode Atom.H4 (strings.TrimSpace (strings.TrimPrefix line "### ".toList))

/-- A state with the nodes `pre` put in front of its own. -/
def State.withPre (pre : List Node) (st : State) : State :=
  { st with nodes := pre ++ st.nodes }

/-! ## `cmd/page.go` and `pkg/token/token.go` -/

/-- Modelled from the spec: the request `telegraph.EditPage` of the library (not
part of the repository): path, title and content of the edit, the optional
author fields (`none` for nil), and the access token. -/
structure EditPage where
  AccessToken : Str
  Path : Str
  Title : Str
  Content : List Node
  AuthorName : Option Str
  AuthorURL : Option Str
  ReturnContent : Bool

/-- Modelled from the spec: `telegraph.NewTitle(raw)` of the library: a title
holding `raw`, or the error of the library's validation; which titles the
library refuses is the parameter `titleError`. -/
def NewTitle (titleError : Str → Option GoError) (raw : Str) : Except GoError Str :=
  match titleError raw with
  | some err => .error err
  | none => .ok raw

/-- The request `editPage` that the command `pageDeleteCmd` builds from the
token and the path argument; when `NewTitle` fails the command prints the error
and returns without a request. -/
def pageDeleteRequest (titleError : Str → Option GoError) (accessToken path : Str) :
    Except GoError EditPage :=
  match NewTitle titleError "Deleted".toList with
  | .error err => .error err
  | .ok deletedTitle =>
    let pElem := (NewNodeElement Atom.P).appendChild (textNode "[deleted]".toList)
    let deletedContent := [elemNode pElem]
    .ok { AccessToken := accessToken, Path := path, Title := deletedTitle,
          Content := deletedContent, AuthorName := none, AuthorURL := none,
          ReturnContent := false }

/-- Modelled from the spec: `backoff.Retry(operation, bo)` of the library
`cenkalti/backoff` (not part of the repository): call the operation; return nil
when it succeeds; when it fails ask the back-off policy, return that last error
when the policy stops, otherwise wait and call again.  `operation k` is what the
call number `k` (from 0) returns, `waits` is the number of waits the policy
grants before it stops (its `MaxElapsedTime` makes it finite).  The result is
the number of calls made and the returned error. -/
def backoffRetry (operation : Nat → Option GoError) : Nat → Nat → Nat × Option GoError
  | 0, calls =>
    match operation calls with
    | none => (calls + 1, none)
    | some err => (calls + 1, some err)
  | waits + 1, calls =>
    match operation calls with
    | none => (calls + 1, none)
    | some _ => backoffRetry operation waits (calls + 1)

/-- Function `retry`: attempts a function with retries using exponential
backoff.  The policy is `NewExponentialBackOff` with `MaxElapsedTime` of one
minute, here the `waits` it grants; the body does not mention `attempts`. -/
def retry (fn : Nat → Option GoError) (_attempts : Int) (waits : Nat) :
    Nat × Option GoError :=
  let operation := fun k => fn k
  backoffRetry operation waits 0

/-- Function `GetToken`: returns the token from the token file.  `tokenPath` is
the result of `GetTokenPath`; `file` is the token file on the file system of
the run: `none` when it does not exist, else the result of `os.ReadFile`. -/
def GetToken (tokenPath : Except GoError Str) (file : Str → Option (Except GoError Str)) :
    Str × Option GoError :=
  match tokenPath with
  | .error err => ([], some err)
  | .ok tokenPath =>
    match file tokenPath with
    | none => ([], some ⟨"token file doesn't exist, please create a user first".toList⟩)
    | some (.error err) => ([], some ⟨"failed to read token file: ".toList ++ err.msg⟩)
    | some (.ok token) => (token, none)

/-- The Go slice expression `s[:hi]`: the first `hi` bytes of `s`, and a
run-time panic (`none`) when `hi` exceeds the length.  The tokens here are
ASCII, one byte per character. -/
def sliceTo (s : Str) (hi : Nat) : Option Str :=
  if hi ≤ s.length then some (s.take hi) else none

/-- The value `accessToken[:10]+"..."` that `pageCreateCmd` prints in verbose
mode after `"Using access token:"`; `none` when evaluating it panics. -/
def tokenPreview (accessToken : Str) : Option Str :=
  (sliceTo accessToken 10).map (· ++ "...".toList)

open strings

/-! ## Lemmas on the string functions -/

theorem hasPrefix_iff (s p : Str) : HasPrefix s p = true ↔ ∃ t, s = p ++ t := by
  unfold HasPrefix
  rw [List.isPrefixOf_iff_prefix]
  constructor
  · rintro ⟨t, rfl⟩; exact ⟨t, rfl⟩
  · rintro ⟨t, rfl⟩; exact ⟨t, rfl⟩

theorem hasPrefix_append (p t : Str) : HasPrefix (p ++ t) p = true :=
  (hasPrefix_iff _ _).2 ⟨t, rfl⟩

theorem trimPrefix_append (p t : Str) : TrimPrefix (p ++ t) p = t := by
  simp [TrimPrefix, hasPrefix_append]

theorem index_newline_none (l : Str) (h : '\n' ∉ l) : Index l ['\n'] = none := by
  induction l with
  | nil => simp [Index]
  | cons c cs ih =>
    have hc : c ≠ '\n' := fun e => h (by simp [e])
    have hcs : '\n' ∉ cs := fun e => h (by simp [e])
    simp [Index, HasPrefix, List.isPrefixOf, hc.symm, ih hcs]

theorem index_newline_append (l rest : Str) (h : '\n' ∉ l) :
    Index (l ++ '\n' :: rest) ['\n'] = some l.length := by
  induction l with
  | nil => simp [Index, HasPrefix, List.isPrefixOf]
  | cons c cs ih =>
    have hc : c ≠ '\n' := fun e => h (by simp [e])
    have hcs : '\n' ∉ cs := fun e => h (by simp [e])
    have := ih hcs
    simp [Index, HasPrefix, List.isPrefixOf, hc.symm] at *
    simpa using this

theorem splitN_join (lines : List Str) (hne : lines ≠ [])
    (hnl : ∀ l ∈ lines, '\n' ∉ l) (n : Nat) (hn : lines.length ≤ n) :
    SplitN (Join lines ['\n']) ['\n'] n = lines := by
  induction lines generalizing n with
  | nil => exact absurd rfl hne
  | cons a rest ih =>
    cases rest with
    | nil =>
      have ha : '\n' ∉ a := hnl a (by simp)
      match n, hn with
      | 1, _ => simp [SplitN, Join]
      | k + 2, _ => simp [SplitN, Join, index_newline_none a ha]
    | cons b rest =>
      have ha : '\n' ∉ a := hnl a (by simp)
      match n, hn with
      | k + 2, hk =>
        have hi : Index (a ++ '\n' :: Join (b :: rest) ['\n']) ['\n']
            = some a.length := index_newline_append a _ ha
        have hrec := ih (by simp) (fun l hl => hnl l (by simp [hl])) (k + 1)
          (by simp at hk ⊢; omega)
        simp [SplitN, Join, hi, hrec]

theorem length_le_join (lines : List Str) :
    lines.length ≤ (Join lines ['\n']).length + 1 := by
  induction lines with
  | nil => simp
  | cons a rest ih =>
    cases rest with
    | nil => simp
    | cons b rest =>
      simp [Join] at ih ⊢
      omega

theorem split_join (lines : List Str) (hne : lines ≠ [])
    (hnl : ∀ l ∈ lines, '\n' ∉ l) :
    Split (Join lines "\n".toList) "\n".toList = lines := by
  simpa [Split] using splitN_join lines hne hnl _ (length_le_join lines)

theorem newlineFree_iff (s : Str) : newlineFree s = true ↔ '\n' ∉ s := by
  simp [newlineFree]

theorem flushParagraph_nil (st : State) (h : st.currentParagraph = []) :
    flushParagraph st = st := by
  simp [flushParagraph, h]

theorem isListLine_iff (l : Str) :
    isListLine l = true ↔ (∃ t, l = '-' :: ' ' :: t) ∨ (∃ t, l = '*' :: ' ' :: t) := by
  simp [isListLine, hasPrefix_iff]

theorem processLine_list (st : State) (l : Str) (hl : isListLine l = true)
    (hc : st.inCodeBlock = false) (hp : st.currentParagraph = []) :
    processLine st l =
      if lastIsUl st.nodes then
        { st with nodes := appendToLast st.nodes (liNode (listItemText l)) }
      else
        { st with nodes := st.nodes ++ [elemNode (.mk Atom.Ul [liNode (listItemText l)])] } := by
  rcases (isListLine_iff l).1 hl with ⟨t, rfl⟩ | ⟨t, rfl⟩ <;>
    simp [processLine, HasPrefix, List.isPrefixOf, hc, flushParagraph_nil st hp,
      NewNodeElement, NodeElement.appendChild, NodeElement.Tag, NodeElement.Children]

theorem lastIsUl_concat (pre : List Node) (n : Node) : lastIsUl (pre ++ [n]) = n.isUl := by
  simp [lastIsUl]

theorem appendToLast_concat (pre : List Node) (n c : Node) :
    appendToLast (pre ++ [n]) c = pre ++ [n.appendChild c] := by
  simp [appendToLast]

theorem processLine_list_merge (pre : List Node) (t : Str) (items : List Node)
    (cc : List Str) (cl : Str) (l : Str) (hl : isListLine l = true) :
    processLine ⟨pre ++ [Node.mk t (some (.mk Atom.Ul items))], [], false, cc, cl⟩ l =
      ⟨pre ++ [Node.mk t (some (.mk Atom.Ul (items ++ [liNode (listItemText l)])))],
        [], false, cc, cl⟩ := by
  rw [processLine_list _ l hl rfl rfl]
  simp [lastIsUl_concat, appendToLast_concat, Node.isUl, Node.Element, NodeElement.Tag,
    Node.appendChild, NodeElement.appendChild, NodeElement.Children, Node.Text]

theorem foldl_list_merge (ls : List Str) (hl : ∀ l ∈ ls, isListLine l = true)
    (pre : List Node) (t : Str) (items : List Node) (cc : List Str) (cl : Str) :
    ls.foldl processLine ⟨pre ++ [Node.mk t (some (.mk Atom.Ul items))], [], false, cc, cl⟩ =
      ⟨pre ++ [Node.mk t (some (.mk Atom.Ul
          (items ++ ls.map fun l => liNode (listItemText l))))], [], false, cc, cl⟩ := by
  induction ls generalizing items with
  | nil => simp
  | cons a rest ih =>
    rw [List.foldl_cons, processLine_list_merge pre t items cc cl a (hl a (by simp)),
      ih (fun l h => hl l (by simp [h]))]
    simp

theorem isBlank_iff (l : Str) : isBlank l = true ↔ ∀ c ∈ l, unicode.IsSpace c = true := by
  simp [isBlank]

theorem trimSpace_eq_nil_iff (s : Str) : TrimSpace s = [] ↔ isBlank s = true := by
  rw [isBlank_iff]
  unfold TrimSpace
  constructor
  · intro h
    rw [List.rdropWhile_eq_nil_iff] at h
    have hd : s.dropWhile unicode.IsSpace = [] := by
      by_contra hne
      have h1 := List.head_dropWhile_not unicode.IsSpace s hne
      have h2 := h _ (List.head_mem hne)
      simp [h1] at h2
    simpa using hd
  · intro h
    have hd : s.dropWhile unicode.IsSpace = [] := by simpa using h
    simp [hd]

theorem hasPrefix_cons_mem (l : Str) (c : Char) (p : Str)
    (h : HasPrefix l (c :: p) = true) : c ∈ l := by
  obtain ⟨t, rfl⟩ := (hasPrefix_iff _ _).1 h
  simp

theorem blank_hasPrefix_false (l : Str) (hb : isBlank l = true) (c : Char) (p : Str)
    (hc : unicode.IsSpace c = false) : HasPrefix l (c :: p) = false := by
  by_contra h
  have hm := hasPrefix_cons_mem l c p (by simpa using h)
  have := (isBlank_iff l).1 hb c hm
  simp [hc] at this

theorem processLine_blank (st : State) (l : Str) (hb : isBlank l = true)
    (hc : st.inCodeBlock = false) (hp : st.currentParagraph = []) :
    processLine st l = st := by
  have h1 : HasPrefix l "```".toList = false := blank_hasPrefix_false l hb _ _ (by decide)
  have h2 : HasPrefix l "# ".toList = false := blank_hasPrefix_false l hb _ _ (by decide)
  have h3 : HasPrefix l "## ".toList = false := blank_hasPrefix_false l hb _ _ (by decide)
  have h4 : HasPrefix l "### ".toList = false := blank_hasPrefix_false l hb _ _ (by decide)
  have h5 : HasPrefix l "- ".toList = false := blank_hasPrefix_false l hb _ _ (by decide)
  have h6 : HasPrefix l "* ".toList = false := blank_hasPrefix_false l hb _ _ (by decide)
  have h7 : TrimSpace l = [] := (trimSpace_eq_nil_iff l).2 hb
  simp only [String.toList] at h1 h2 h3 h4 h5 h6
  simp [processLine, h1, h2, h3, h4, h5, h6, h7, hc, flushParagraph_nil st hp]

theorem foldl_blank (ls : List Str) (hb : ∀ l ∈ ls, isBlank l = true) (st : State)
    (hc : st.inCodeBlock = false) (hp : st.currentParagraph = []) :
    ls.foldl processLine st = st := by
  induction ls with
  | nil => rfl
  | cons a rest ih =>
    rw [List.foldl_cons, processLine_blank st a (hb a (by simp)) hc hp]
    exact ih (fun l h => hb l (by simp [h]))

theorem processLine_list_init (l : Str) (hl : isListLine l = true) :
    processLine State.init l =
      ⟨[] ++ [Node.mk [] (some (.mk Atom.Ul [liNode (listItemText l)]))], [], false, [], []⟩ := by
  rw [processLine_list _ l hl rfl rfl]
  simp [State.init, lastIsUl, elemNode]

theorem markdownToNodes_join (lines : List Str) (hne : lines ≠ [])
    (hnl : ∀ l ∈ lines, newlineFree l = true) :
    markdownToNodes (Join lines "\n".toList) =
      ((flushParagraph (lines.foldl processLine State.init)).nodes, none) := by
  unfold markdownToNodes
  rw [split_join lines hne (fun l h => (newlineFree_iff l).1 (hnl l h))]

theorem markdownToNodes_single (line : Str) (hnl : newlineFree line = true) :
    markdownToNodes line =
      ((flushParagraph (processLine State.init line)).nodes, none) := by
  have := markdownToNodes_join [line] (by simp) (by simpa using hnl)
  simpa [Join] using this

/-! ## Statements about the converter -/

/-- C1, as stated, fails on `"- a\n\n- b"`: the converter returns one
unordered list holding both items, not two top-level nodes. -/
theorem blank_line_between_items_counterexample :
    markdownToNodes "- a\n\n- b".toList =
      ([Node.mk [] (some (NodeElement.mk Atom.Ul
          [Node.mk [] (some (NodeElement.mk Atom.Li [Node.mk "a".toList none])),
           Node.mk [] (some (NodeElement.mk Atom.Li [Node.mk "b".toList none]))]))], none)
    ∧ ¬ ∃ u v, (markdownToNodes "- a\n\n- b".toList).1 = [u, v] := by
  have h : markdownToNodes "- a\n\n- b".toList =
      ([Node.mk [] (some (NodeElement.mk Atom.Ul
          [Node.mk [] (some (NodeElement.mk Atom.Li [Node.mk "a".toList none])),
           Node.mk [] (some (NodeElement.mk Atom.Li [Node.mk "b".toList none]))]))], none) := rfl
  refine ⟨h, ?_⟩
  rintro ⟨u, v, huv⟩
  rw [h] at huv
  simp at huv

/-- C1, amended: blank lines between two list items do not end the list run.
For list-item lines `a` and `b` separated by one or more blank or
white-space-only lines, `markdownToNodes` returns one top-level unordered list
whose children are the two list items, in order. -/
theorem blank_lines_keep_list_run (a b : Str) (blanks : List Str)
    (ha : newlineFree a = true ∧ isListLine a = true)
    (hb : newlineFree b = true ∧ isListLine b = true)
    (_hne : blanks ≠ [])
    (hblank : ∀ l ∈ blanks, newlineFree l = true ∧ isBlank l = true) :
    markdownToNodes (Join ([a] ++ blanks ++ [b]) "\n".toList) =
      ([Node.mk [] (some (NodeElement.mk Atom.Ul
          [Node.mk [] (some (NodeElement.mk Atom.Li [Node.mk (listItemText a) none])),
           Node.mk [] (some (NodeElement.mk Atom.Li [Node.mk (listItemText b) none]))]))],
        none) := by
  rw [markdownToNodes_join _ (by simp)]
  · rw [List.foldl_append, List.foldl_append]
    simp only [List.foldl_cons, List.foldl_nil]
    rw [processLine_list_init a ha.2,
      foldl_blank blanks (fun l h => (hblank l h).2) _ rfl rfl,
      processLine_list_merge [] [] _ [] [] b hb.2]
    simp [flushParagraph, liNode, elemNode, textNode, NewNodeElement,
      NodeElement.appendChild, NodeElement.Tag, NodeElement.Children]
  · intro l hl
    simp only [List.mem_append, List.mem_singleton] at hl
    rcases hl with (rfl | hl) | rfl
    · exact ha.1
    · exact (hblank l hl).1
    · exact hb.1

/-- Witness of `blank_lines_keep_list_run`: two items with an empty line and a
line of two spaces between them. -/
theorem blank_lines_keep_list_run_witness :
    markdownToNodes "- a\n\n  \n* b".toList =
      ([Node.mk [] (some (NodeElement.mk Atom.Ul
          [Node.mk [] (some (NodeElement.mk Atom.Li [Node.mk "a".toList none])),
           Node.mk [] (some (NodeElement.mk Atom.Li [Node.mk "b".toList none]))]))],
        none) :=
  blank_lines_keep_list_run "- a".toList "* b".toList ["".toList, "  ".toList]
    (by decide) (by decide) (by decide) (by decide)

/-- C2: a run of `n ≥ 1` list-item lines (markers `- ` and `* ` may be mixed)
becomes exactly one top-level node, an unordered list with one `li` child per
line in source order, each holding the single text leaf built from its line. -/
theorem list_run_single_ul (lines : List Str) (hne : lines ≠ [])
    (hline : ∀ l ∈ lines, newlineFree l = true ∧ isListLine l = true) :
    markdownToNodes (Join lines "\n".toList) =
      ([Node.mk [] (some (NodeElement.mk Atom.Ul
          (lines.map fun l =>
            Node.mk [] (some (NodeElement.mk Atom.Li [Node.mk (listItemText l) none])))))],
        none)
    ∧ (lines.map fun l =>
        Node.mk [] (some (NodeElement.mk Atom.Li [Node.mk (listItemText l) none]))).length
      = lines.length := by
  refine ⟨?_, by simp⟩
  rw [markdownToNodes_join lines hne (fun l h => (hline l h).1)]
  cases lines with
  | nil => exact absurd rfl hne
  | cons a rest =>
    rw [List.foldl_cons, processLine_list_init a (hline a (by simp)).2,
      foldl_list_merge rest (fun l h => (hline l (by simp [h])).2)]
    simp [flushParagraph, liNode, elemNode, textNode, NewNodeElement,
      NodeElement.appendChild, NodeElement.Tag, NodeElement.Children]

/-- Witness of `list_run_single_ul`: the three items of `"- a\n* b\n- c"`. -/
theorem list_run_single_ul_witness :
    markdownToNodes "- a\n* b\n- c".toList =
      ([Node.mk [] (some (NodeElement.mk Atom.Ul
          [Node.mk [] (some (NodeElement.mk Atom.Li [Node.mk "a".toList none])),
           Node.mk [] (some (NodeElement.mk Atom.Li [Node.mk "b".toList none])),
           Node.mk [] (some (NodeElement.mk Atom.Li [Node.mk "c".toList none]))]))],
        none) :=
  (list_run_single_ul ["- a".toList, "* b".toList, "- c".toList] (by decide) (by decide)).1

theorem processLine_fence_open (nodes : List Node) (cc : List Str) (cl g : Str) :
    processLine ⟨nodes, [], false, cc, cl⟩ ("```".toList ++ g) =
      ⟨nodes, [], true, cc, TrimSpace g⟩ := by
  simp [processLine, HasPrefix, List.isPrefixOf, flushParagraph, TrimPrefix]

theorem processLine_in_code (nodes : List Node) (cp cc : List Str) (cl l : Str)
    (hl : HasPrefix l "```".toList = false) :
    processLine ⟨nodes, cp, true, cc, cl⟩ l = ⟨nodes, cp, true, cc ++ [l], cl⟩ := by
  simp only [String.toList] at hl
  simp [processLine, hl]

theorem foldl_in_code (ls : List Str) (hl : ∀ l ∈ ls, HasPrefix l "```".toList = false)
    (nodes : List Node) (cp cc : List Str) (cl : Str) :
    ls.foldl processLine ⟨nodes, cp, true, cc, cl⟩ = ⟨nodes, cp, true, cc ++ ls, cl⟩ := by
  induction ls generalizing cc with
  | nil => simp
  | cons a rest ih =>
    rw [List.foldl_cons, processLine_in_code nodes cp cc cl a (hl a (by simp)),
      ih (fun l h => hl l (by simp [h]))]
    simp

theorem processLine_fence_close (nodes : List Node) (cp cc : List Str) (cl : Str) :
    processLine ⟨nodes, cp, true, cc, cl⟩ "```".toList =
      ⟨nodes ++ [codeBlockNode (Join cc "\n".toList)], cp, false, [], []⟩ := by
  simp [processLine, HasPrefix, List.isPrefixOf]

/-- C3: a fenced block, whatever its language annotation `g`, becomes exactly
one node, `pre` holding `code` holding the text leaf of the lines between the
fences joined by newlines; the lines are taken as they are, and the
annotation does not reach the result. -/
theorem fenced_block_single_pre (g : Str) (L : List Str) (hg : newlineFree g = true)
    (hL : ∀ l ∈ L, newlineFree l = true ∧ HasPrefix l "```".toList = false) :
    markdownToNodes (Join (["```".toList ++ g] ++ L ++ ["```".toList]) "\n".toList) =
      ([Node.mk [] (some (NodeElement.mk Atom.Pre
          [Node.mk [] (some (NodeElement.mk Atom.Code
            [Node.mk (Join L "\n".toList) none]))]))], none) := by
  rw [markdownToNodes_join _ (by simp)]
  · rw [List.foldl_append, List.foldl_append]
    simp only [List.foldl_cons, List.foldl_nil]
    rw [show State.init = ⟨[], [], false, [], []⟩ from rfl, processLine_fence_open,
      foldl_in_code L (fun l h => (hL l h).2), processLine_fence_close]
    simp [flushParagraph, codeBlockNode, elemNode, textNode, NewNodeElement,
      NodeElement.appendChild, NodeElement.Tag, NodeElement.Children]
  · intro l hl
    simp only [List.mem_append, List.mem_singleton] at hl
    rcases hl with (rfl | hl) | rfl
    · rw [newlineFree_iff] at hg ⊢
      simpa using hg
    · exact (hL l hl).1
    · decide

/-- Witness of `fenced_block_single_pre`: a block annotated `go` whose lines
look like a heading, a blank line and a list item. -/
theorem fenced_block_single_pre_witness :
    markdownToNodes "```go\n# not a heading\n\n- not a list\n```".toList =
      ([Node.mk [] (some (NodeElement.mk Atom.Pre
          [Node.mk [] (some (NodeElement.mk Atom.Code
            [Node.mk "# not a heading\n\n- not a list".toList none]))]))], none) :=
  fenced_block_single_pre "go".toList
    ["# not a heading".toList, "".toList, "- not a list".toList] (by decide) (by decide)

theorem mem_join (lines : List Str) (sep l : Str) (c : Char) (hl : l ∈ lines) (hc : c ∈ l) :
    c ∈ Join lines sep := by
  induction lines with
  | nil => simp at hl
  | cons a rest ih =>
    cases rest with
    | nil =>
      simp at hl
      simpa [Join, hl] using hc
    | cons b rest =>
      simp only [Join, List.mem_append]
      rcases List.mem_cons.1 hl with rfl | h
      · exact Or.inl (Or.inl hc)
      · exact Or.inr (ih h)

theorem processLine_plain (nodes : List Node) (cp cc : List Str) (cl l : Str)
    (hl : isPlainLine l = true) :
    processLine ⟨nodes, cp, false, cc, cl⟩ l = ⟨nodes, cp ++ [l], false, cc, cl⟩ := by
  simp only [isPlainLine, Bool.and_eq_true, Bool.not_eq_true', String.toList] at hl
  obtain ⟨⟨⟨⟨⟨⟨h0, h1⟩, h2⟩, h3⟩, h4⟩, h5⟩, h6⟩ := hl
  have h7 : TrimSpace l ≠ [] := by
    rw [Ne, trimSpace_eq_nil_iff]; simp [h0]
  simp [processLine, h1, h2, h3, h4, h5, h6, h7]

theorem foldl_plain (ls : List Str) (hl : ∀ l ∈ ls, isPlainLine l = true)
    (nodes : List Node) (cp cc : List Str) (cl : Str) :
    ls.foldl processLine ⟨nodes, cp, false, cc, cl⟩ = ⟨nodes, cp ++ ls, false, cc, cl⟩ := by
  induction ls generalizing cp with
  | nil => simp
  | cons a rest ih =>
    rw [List.foldl_cons, processLine_plain nodes cp cc cl a (hl a (by simp)),
      ih (fun l h => hl l (by simp [h]))]
    simp

theorem trimSpace_join_ne_nil (lines : List Str) (sep : Str) (hne : lines ≠ [])
    (hl : ∀ l ∈ lines, isBlank l = false) : TrimSpace (Join lines sep) ≠ [] := by
  cases lines with
  | nil => exact absurd rfl hne
  | cons a rest =>
    have ha := hl a (by simp)
    rw [Ne, trimSpace_eq_nil_iff, isBlank_iff]
    intro hall
    have : isBlank a = true := by
      rw [isBlank_iff]
      intro c hc
      exact hall c (mem_join (a :: rest) sep a c (by simp) hc)
    simp [ha] at this

/-- C4: a non-empty run of plain lines becomes exactly one node, a paragraph
whose single child is the text leaf of the lines joined by one space and
trimmed. -/
theorem plain_lines_single_paragraph (lines : List Str) (hne : lines ≠ [])
    (hline : ∀ l ∈ lines, newlineFree l = true ∧ isPlainLine l = true) :
    markdownToNodes (Join lines "\n".toList) =
      ([Node.mk [] (some (NodeElement.mk Atom.P
          [Node.mk (TrimSpace (Join lines " ".toList)) none]))], none) := by
  rw [markdownToNodes_join lines hne (fun l h => (hline l h).1),
    show State.init = ⟨[], [], false, [], []⟩ from rfl,
    foldl_plain lines (fun l h => (hline l h).2)]
  have hpos : 0 < lines.length := List.length_pos.2 hne
  have htrim : TrimSpace (Join lines [' ']) ≠ [] :=
    trimSpace_join_ne_nil lines _ hne (fun l h => by
      have := (hline l h).2
      simp only [isPlainLine, Bool.and_eq_true, Bool.not_eq_true'] at this
      exact this.1.1.1.1.1.1)
  simp [flushParagraph, hpos, htrim, elemNode, textNode, NewNodeElement,
    NodeElement.appendChild, NodeElement.Tag, NodeElement.Children]

/-- Witness of `plain_lines_single_paragraph`: the two lines of
`"line one\nline two"`. -/
theorem plain_lines_single_paragraph_witness :
    markdownToNodes "line one\nline two".toList =
      ([Node.mk [] (some (NodeElement.mk Atom.P
          [Node.mk "line one line two".toList none]))], none) :=
  plain_lines_single_paragraph ["line one".toList, "line two".toList] (by decide) (by decide)

/-- C5 fails on the code: the closing marker is searched as a run of bytes, not
as a line.  In `"---\nx---\ny\n---\nBody"` the first line after the opening
marker that is exactly `---` is the fourth, and the text after it is `Body`;
the function cuts inside the second line and returns `"y\n---\nBody"`. -/
theorem skipYAMLFrontMatter_cuts_inside_line :
    HasPrefix "---\nx---\ny\n---\nBody".toList "---\n".toList = true
    ∧ specAfterMarkerLine true ("---\nx---\ny\n---\nBody".toList.drop 4) = some "Body".toList
    ∧ skipYAMLFrontMatter "---\nx---\ny\n---\nBody".toList = "y\n---\nBody".toList
    ∧ skipYAMLFrontMatter "---\nx---\ny\n---\nBody".toList ≠ "Body".toList := by
  decide

/-- C6 fails on the code: `"---\ntitle: a ---\nBody"` opens with the marker and
has no later line that is exactly `---`, yet the function finds the bytes
`---\n` at the end of the second line and returns `"Body"`, not the content. -/
theorem skipYAMLFrontMatter_drops_unclosed_front_matter :
    HasPrefix "---\ntitle: a ---\nBody".toList "---\n".toList = true
    ∧ specAfterMarkerLine true ("---\ntitle: a ---\nBody".toList.drop 4) = none
    ∧ skipYAMLFrontMatter "---\ntitle: a ---\nBody".toList = "Body".toList
    ∧ skipYAMLFrontMatter "---\ntitle: a ---\nBody".toList
        ≠ "---\ntitle: a ---\nBody".toList := by
  decide

/-- C7: on a content that does not begin with `---\n`, `skipYAMLFrontMatter` is
the identity. -/
theorem skipYAMLFrontMatter_identity (content : Str)
    (h : bytes.HasPrefix content "---\n".toList = false) :
    skipYAMLFrontMatter content = content := by
  simp only [String.toList] at h
  simp [skipYAMLFrontMatter, h]

/-- Witness of `skipYAMLFrontMatter_identity`: a body whose marker line is not
the first line. -/
theorem skipYAMLFrontMatter_identity_witness :
    skipYAMLFrontMatter "Body\n---\nx\n---\n".toList = "Body\n---\nx\n---\n".toList :=
  skipYAMLFrontMatter_identity "Body\n---\nx\n---\n".toList (by decide)

/-! ### The tags of the output -/

theorem tagsList_append (xs ys : List Node) :
    tagsList (xs ++ ys) = tagsList xs ++ tagsList ys := by
  induction xs with
  | nil => simp [tagsList]
  | cons x xs ih => simp [tagsList, ih]

theorem tagsList_singleton (n : Node) : tagsList [n] = n.tags := by
  simp [tagsList]

theorem tags_appendChild (n c : Node) (a : Atom) (h : a ∈ (n.appendChild c).tags) :
    a ∈ n.tags ∨ a ∈ c.tags := by
  rcases n with ⟨t, _ | ⟨tag, ch⟩⟩
  · left; simpa [Node.appendChild, Node.Element] using h
  · simp only [Node.appendChild, Node.Element, Node.Text, NodeElement.appendChild,
      NodeElement.Tag, NodeElement.Children, Node.tags, NodeElement.tags, tagsList_append,
      tagsList_singleton, List.mem_cons, List.mem_append] at h ⊢
    tauto

theorem tagsList_appendToLast (nodes : List Node) (c : Node) (a : Atom)
    (h : a ∈ tagsList (appendToLast nodes c)) : a ∈ tagsList nodes ∨ a ∈ c.tags := by
  unfold appendToLast at h
  cases hlast : nodes.getLast? with
  | none => left; simpa [hlast] using h
  | some n =>
    have hsplit : nodes.dropLast ++ [n] = nodes :=
      List.dropLast_append_getLast? n (by simp [hlast])
    rw [hlast] at h
    simp only [tagsList_append, tagsList_singleton, List.mem_append] at h
    rw [← hsplit, tagsList_append, tagsList_singleton, List.mem_append]
    rcases h with h | h
    · exact Or.inl (Or.inl h)
    · rcases tags_appendChild n c a h with h | h
      · exact Or.inl (Or.inr h)
      · exact Or.inr h

theorem tagsOk_concat (nodes : List Node) (n : Node) (h : TagsOk nodes)
    (hn : ∀ a ∈ n.tags, a ∈ producedTags) : TagsOk (nodes ++ [n]) := by
  intro a ha
  rw [tagsList_append, tagsList_singleton, List.mem_append] at ha
  rcases ha with ha | ha
  · exact h a ha
  · exact hn a ha

theorem headingNode_tags (tag : Atom) (text : Str) : (headingNode tag text).tags = [tag] := by
  simp [headingNode, elemNode, textNode, NewNodeElement, NodeElement.appendChild,
    NodeElement.Tag, NodeElement.Children, Node.tags, NodeElement.tags, tagsList]

theorem liNode_tags (text : Str) : (liNode text).tags = [Atom.Li] := by
  simp [liNode, elemNode, textNode, NewNodeElement, NodeElement.appendChild,
    NodeElement.Tag, NodeElement.Children, Node.tags, NodeElement.tags, tagsList]

theorem codeBlockNode_tags (code : Str) :
    (codeBlockNode code).tags = [Atom.Pre, Atom.Code] := by
  simp [codeBlockNode, elemNode, textNode, NewNodeElement, NodeElement.appendChild,
    NodeElement.Tag, NodeElement.Children, Node.tags, NodeElement.tags, tagsList]

theorem flushParagraph_tagsOk (st : State) (h : TagsOk st.nodes) :
    TagsOk (flushParagraph st).nodes := by
  unfold flushParagraph
  split
  · simp only
    split
    · apply tagsOk_concat _ _ h
      intro a ha
      have : (elemNode ((NewNodeElement Atom.P).appendChild (textNode
          (TrimSpace (Join st.currentParagraph " ".toList))))).tags = [Atom.P] :=
        headingNode_tags Atom.P _
      rw [this] at ha
      simp at ha
      simp [ha, producedTags]
    · exact h
  · exact h

theorem processLine_tagsOk (st : State) (line : Str) (h : TagsOk st.nodes) :
    TagsOk (processLine st line).nodes := by
  have hf := flushParagraph_tagsOk st h
  unfold processLine
  split_ifs
  · apply tagsOk_concat _ _ h
    intro a ha
    rw [codeBlockNode_tags] at ha
    simp at ha
    rcases ha with rfl | rfl <;> simp [producedTags]
  · exact hf
  · exact h
  · apply tagsOk_concat _ _ hf
    intro a ha
    rw [headingNode_tags] at ha
    simp at ha
    simp [ha, producedTags]
  · apply tagsOk_concat _ _ hf
    intro a ha
    rw [headingNode_tags] at ha
    simp at ha
    simp [ha, producedTags]
  · apply tagsOk_concat _ _ hf
    intro a ha
    rw [headingNode_tags] at ha
    simp at ha
    simp [ha, producedTags]
  · dsimp only
    split_ifs
    · intro a ha
      rcases tagsList_appendToLast _ _ a ha with ha | ha
      · exact hf a ha
      · rw [liNode_tags] at ha
        simp at ha
        simp [ha, producedTags]
    · apply tagsOk_concat _ _ hf
      intro a ha
      have : (elemNode ((NewNodeElement Atom.Ul).appendChild
          (liNode (listItemText line)))).tags = [Atom.Ul, Atom.Li] := by
        simp [liNode, elemNode, textNode, NewNodeElement, NodeElement.appendChild,
          NodeElement.Tag, NodeElement.Children, Node.tags, NodeElement.tags, tagsList]
      rw [this] at ha
      simp at ha
      rcases ha with rfl | rfl <;> simp [producedTags]
  · exact hf
  · exact h

theorem foldl_tagsOk (ls : List Str) (st : State) (h : TagsOk st.nodes) :
    TagsOk (ls.foldl processLine st).nodes := by
  induction ls generalizing st with
  | nil => exact h
  | cons a rest ih => exact ih _ (processLine_tagsOk st a h)

theorem markdownToNodes_tagsOk (content : Str) : TagsOk (markdownToNodes content).1 := by
  unfold markdownToNodes
  exact flushParagraph_tagsOk _ (foldl_tagsOk _ _ (by intro a ha; simp [State.init, tagsList] at ha))

/-- C8: a single line `# t` becomes exactly one node, an `h3` element whose
single child is the text leaf of the trimmed `t`; and for every input no `h1`
and no `h2` tag occurs in the output, at any depth. -/
theorem h1_line_single_h3 (t : Str) (ht : newlineFree t = true) :
    markdownToNodes ("# ".toList ++ t) =
      ([Node.mk [] (some (NodeElement.mk Atom.H3 [Node.mk (TrimSpace t) none]))], none)
    ∧ ∀ content : Str, Atom.H1 ∉ tagsList (markdownToNodes content).1
        ∧ Atom.H2 ∉ tagsList (markdownToNodes content).1 := by
  constructor
  · rw [markdownToNodes_single _ (by rw [newlineFree_iff] at ht ⊢; simpa using ht)]
    simp [processLine, State.init, HasPrefix, List.isPrefixOf, TrimPrefix, flushParagraph,
      headingNode, elemNode, textNode, NewNodeElement, NodeElement.appendChild,
      NodeElement.Tag, NodeElement.Children]
  · intro content
    constructor
    · intro h
      have := markdownToNodes_tagsOk content _ h
      simp [producedTags] at this
    · intro h
      have := markdownToNodes_tagsOk content _ h
      simp [producedTags] at this

/-- Witness of `h1_line_single_h3`: the line `# Hello`. -/
theorem h1_line_single_h3_witness :
    markdownToNodes "# Hello".toList =
      ([Node.mk [] (some (NodeElement.mk Atom.H3 [Node.mk "Hello".toList none]))], none) :=
  (h1_line_single_h3 "Hello".toList (by decide)).1

/-- C9: a single line `## t` and a single line `### t` both become exactly one
node, an `h4` element whose single child is the text leaf of the trimmed `t`.
A line that starts with `### ` does not start with `## `, and a line that
starts with `## ` does not start with `### `: the two tests exclude each other,
so their order does not matter. -/
theorem h2_h3_lines_single_h4 (t : Str) (ht : newlineFree t = true) :
    markdownToNodes ("## ".toList ++ t) =
      ([Node.mk [] (some (NodeElement.mk Atom.H4 [Node.mk (TrimSpace t) none]))], none)
    ∧ markdownToNodes ("### ".toList ++ t) =
      ([Node.mk [] (some (NodeElement.mk Atom.H4 [Node.mk (TrimSpace t) none]))], none)
    ∧ HasPrefix ("### ".toList ++ t) "## ".toList = false
    ∧ HasPrefix ("## ".toList ++ t) "### ".toList = false := by
  refine ⟨?_, ?_, ?_, ?_⟩
  · rw [markdownToNodes_single _ (by rw [newlineFree_iff] at ht ⊢; simpa using ht)]
    simp [processLine, State.init, HasPrefix, List.isPrefixOf, TrimPrefix, flushParagraph,
      headingNode, elemNode, textNode, NewNodeElement, NodeElement.appendChild,
      NodeElement.Tag, NodeElement.Children]
  · rw [markdownToNodes_single _ (by rw [newlineFree_iff] at ht ⊢; simpa using ht)]
    simp [processLine, State.init, HasPrefix, List.isPrefixOf, TrimPrefix, flushParagraph,
      headingNode, elemNode, textNode, NewNodeElement, NodeElement.appendChild,
      NodeElement.Tag, NodeElement.Children]
  · simp [HasPrefix, List.isPrefixOf]
  · simp [HasPrefix, List.isPrefixOf]

/-- Witness of `h2_h3_lines_single_h4`: the lines `## Sub` and `### Sub`. -/
theorem h2_h3_lines_single_h4_witness :
    markdownToNodes "## Sub".toList =
      ([Node.mk [] (some (NodeElement.mk Atom.H4 [Node.mk "Sub".toList none]))], none)
    ∧ markdownToNodes "### Sub".toList =
      ([Node.mk [] (some (NodeElement.mk Atom.H4 [Node.mk "Sub".toList none]))], none) :=
  ⟨(h2_h3_lines_single_h4 "Sub".toList (by decide)).1,
   (h2_h3_lines_single_h4 "Sub".toList (by decide)).2.1⟩

/-- C10 fails on the code: the list branch strips `- ` and then `* `, one after
the other.  The line `- * x` starts with `- ` and its remainder is `* x`, yet the
text of its list item is `x`; the line `* - x` keeps its remainder `- x`. -/
theorem listItemText_strips_second_marker :
    isListLine "- * x".toList = true
    ∧ TrimSpace ("- * x".toList.drop 2) = "* x".toList
    ∧ listItemText "- * x".toList = "x".toList
    ∧ markdownToNodes "- * x".toList =
        ([Node.mk [] (some (NodeElement.mk Atom.Ul
          [Node.mk [] (some (NodeElement.mk Atom.Li [Node.mk "x".toList none]))]))], none)
    ∧ listItemText "* - x".toList = "- x".toList := by
  refine ⟨by decide, by decide, by decide, rfl, by decide⟩

/-! ### What the code does where the statements above fail -/

/-- The example of the specification: the front matter `title: X` is removed. -/
theorem skipYAMLFrontMatter_example :
    skipYAMLFrontMatter "---\ntitle: X\n---\nBody".toList = "Body".toList := by
  decide

/-- The closing marker `skipYAMLFrontMatter` looks for is the first occurrence
of the bytes `---\n` after the opening marker, wherever in a line it is. -/
theorem skipYAMLFrontMatter_eq_index (content : Str)
    (h : bytes.HasPrefix content "---\n".toList = true) :
    skipYAMLFrontMatter content =
      match Index (content.drop 4) "---\n".toList with
      | none => content
      | some m => (content.drop 4).drop (m + 4) := by
  simp only [String.toList] at h
  simp only [skipYAMLFrontMatter, String.toList, h, bytes.SplitN, SplitN]
  cases Index (List.drop 4 content) ['-', '-', '-', '\n'] <;> simp

/-- A list-item line whose remainder does not itself start with `* ` after a
`- ` marker keeps its whole trimmed remainder. -/
theorem listItemText_eq_trimmed_remainder (line : Str) (h : isListLine line = true)
    (h2 : HasPrefix line "- ".toList = false ∨ HasPrefix (line.drop 2) "* ".toList = false) :
    listItemText line = TrimSpace (line.drop 2) := by
  rcases (isListLine_iff line).1 h with ⟨t, rfl⟩ | ⟨t, rfl⟩
  · rcases h2 with h2 | h2
    · simp [HasPrefix, List.isPrefixOf] at h2
    · simp only [String.toList, List.drop_succ_cons, List.drop_zero] at h2
      simp [listItemText, TrimPrefix, HasPrefix, List.isPrefixOf] at h2 ⊢
      have h3 : ¬ (['*', ' '] <+: t) := by
        rw [← List.isPrefixOf_iff_prefix]; simp [h2]
      simp [h3]
  · simp [listItemText, TrimPrefix, HasPrefix, List.isPrefixOf]

/-! ## Statements about whole documents -/

theorem flushParagraph_inCodeBlock (st : State) :
    (flushParagraph st).inCodeBlock = st.inCodeBlock := by
  unfold flushParagraph
  dsimp only
  split_ifs <;> rfl

theorem flushParagraph_codeContent (st : State) :
    (flushParagraph st).codeContent = st.codeContent := by
  unfold flushParagraph
  dsimp only
  split_ifs <;> rfl

theorem flushParagraph_currentParagraph (st : State) :
    (flushParagraph st).currentParagraph = [] := by
  unfold flushParagraph
  dsimp only
  split_ifs with h1 h2
  · rfl
  · rfl
  · simpa using h1

theorem flushParagraph_idem (st : State) :
    flushParagraph (flushParagraph st) = flushParagraph st :=
  flushParagraph_nil _ (flushParagraph_currentParagraph st)

theorem processLine_inCodeBlock (st : State) (l : Str) :
    (processLine st l).inCodeBlock =
      if isFenceLine l then !st.inCodeBlock else st.inCodeBlock := by
  unfold processLine isFenceLine
  dsimp only
  split_ifs <;> simp_all [flushParagraph_inCodeBlock]

theorem foldl_inCodeBlock (ls : List Str) (st : State) :
    (ls.countP isFenceLine % 2 = 0 →
        (ls.foldl processLine st).inCodeBlock = st.inCodeBlock)
    ∧ (ls.countP isFenceLine % 2 = 1 →
        (ls.foldl processLine st).inCodeBlock = !st.inCodeBlock) := by
  induction ls generalizing st with
  | nil => simp
  | cons a rest ih =>
    have h := ih (processLine st a)
    rw [processLine_inCodeBlock] at h
    rw [List.foldl_cons, List.countP_cons]
    by_cases ha : isFenceLine a = true
    · simp only [ha, if_true] at h ⊢
      constructor
      · intro hc
        rw [h.2 (by omega)]; simp
      · intro hc
        rw [h.1 (by omega)]
    · simp only [ha, Bool.false_eq_true, if_false, Nat.add_zero] at h ⊢
      exact h

theorem markdownToNodes_join_any (lines : List Str)
    (hnl : ∀ l ∈ lines, newlineFree l = true) :
    markdownToNodes (Join lines "\n".toList) =
      ((flushParagraph (lines.foldl processLine State.init)).nodes, none) := by
  cases lines with
  | nil => rfl
  | cons a rest => exact markdownToNodes_join _ (by simp) hnl

theorem processLine_fence_open_any (st : State) (g : Str) (hc : st.inCodeBlock = false) :
    processLine st ("```".toList ++ g) =
      { flushParagraph st with inCodeBlock := true, codeLanguage := TrimSpace g } := by
  simp [processLine, HasPrefix, List.isPrefixOf, TrimPrefix, hc]

/-- C11: an unterminated code block is dropped silently.  When the lines `A`
hold an even number of fence lines, appending an opening fence (with any
annotation `g`) and lines `L` without a fence changes nothing: the result is the
one of `A` alone, nodes and nil error alike. -/
theorem unterminated_code_block_dropped (A L : List Str) (g : Str)
    (hA : ∀ l ∈ A, newlineFree l = true)
    (heven : A.countP isFenceLine % 2 = 0)
    (hg : newlineFree g = true)
    (hL : ∀ l ∈ L, newlineFree l = true ∧ isFenceLine l = false) :
    markdownToNodes (Join (A ++ ["```".toList ++ g] ++ L) "\n".toList) =
      markdownToNodes (Join A "\n".toList)
    ∧ (markdownToNodes (Join (A ++ ["```".toList ++ g] ++ L) "\n".toList)).2 = none := by
  have hall : ∀ l ∈ A ++ ["```".toList ++ g] ++ L, newlineFree l = true := by
    intro l hl
    simp only [List.mem_append, List.mem_singleton] at hl
    rcases hl with (hl | rfl) | hl
    · exact hA l hl
    · rw [newlineFree_iff] at hg ⊢
      simpa using hg
    · exact (hL l hl).1
  have hin : (A.foldl processLine State.init).inCodeBlock = false :=
    (foldl_inCodeBlock A State.init).1 heven
  have key : markdownToNodes (Join (A ++ ["```".toList ++ g] ++ L) "\n".toList) =
      markdownToNodes (Join A "\n".toList) := by
    rw [markdownToNodes_join_any _ hall, markdownToNodes_join_any _ hA,
      List.foldl_append, List.foldl_append]
    simp only [List.foldl_cons, List.foldl_nil]
    rw [processLine_fence_open_any _ g hin]
    have hcp := flushParagraph_currentParagraph (A.foldl processLine State.init)
    generalize flushParagraph (A.foldl processLine State.init) = s at hcp ⊢
    rcases s with ⟨nodes, cp, icb, cc, cl⟩
    simp only at hcp
    subst hcp
    rw [foldl_in_code L (fun l h => (hL l h).2)]
    simp [flushParagraph]
  refine ⟨key, ?_⟩
  rw [key, markdownToNodes_join_any _ hA]

/-- Witness of `unterminated_code_block_dropped`: a heading and a closed block,
then a block that is never closed. -/
theorem unterminated_code_block_dropped_witness :
    markdownToNodes "# T\n```\nx\n```\n```go\ncode line\n- item".toList =
      markdownToNodes "# T\n```\nx\n```".toList
    ∧ (markdownToNodes "# T\n```\nx\n```\n```go\ncode line\n- item".toList).2 = none :=
  unterminated_code_block_dropped
    ["# T".toList, "```".toList, "x".toList, "```".toList]
    ["code line".toList, "- item".toList] "go".toList
    (by decide) (by decide) (by decide) (by decide)

/-- The example of the specification for an unterminated fence: no node. -/
theorem unterminated_fence_example :
    markdownToNodes "```\ncode line".toList = ([], none) := rfl

/-- C12: an input whose lines are all empty or white space only (the empty
input included) gives an empty node sequence. -/
theorem blank_input_no_nodes (content : Str)
    (h : ∀ l ∈ Split content "\n".toList, isBlank l = true) :
    markdownToNodes content = ([], none) := by
  unfold markdownToNodes
  simp only
  rw [foldl_blank _ h State.init rfl rfl]
  rfl

/-- Witness of `blank_input_no_nodes`: an empty line, a line of spaces, a line
with a tab and a carriage return, and an empty last line. -/
theorem blank_input_no_nodes_witness :
    markdownToNodes "\n   \n\t\r\n".toList = ([], none) :=
  blank_input_no_nodes "\n   \n\t\r\n".toList (by decide)

theorem markdownToNodes_snd (content : Str) : (markdownToNodes content).2 = none := rfl

/-- C13: `Parse` fails exactly when reading the file fails, and then it returns
nil nodes and the error that reports the read error; when the read succeeds it
returns the nodes of the content after the front matter, with a nil error.
`markdownToNodes` returns a nil error for every input. -/
theorem parse_fails_iff_read_fails (ReadFile : Str → Except GoError Str) (filePath : Str) :
    ((Parse ReadFile filePath).2 ≠ none ↔ ∃ err, ReadFile filePath = Except.error err)
    ∧ (∀ err, ReadFile filePath = Except.error err →
        Parse ReadFile filePath =
          (none, some ⟨"failed to read markdown file: ".toList ++ err.msg⟩))
    ∧ (∀ content, ReadFile filePath = Except.ok content →
        Parse ReadFile filePath =
          (some (markdownToNodes (skipYAMLFrontMatter content)).1, none))
    ∧ ∀ content, (markdownToNodes content).2 = none := by
  refine ⟨?_, ?_, ?_, markdownToNodes_snd⟩
  · cases h : ReadFile filePath with
    | error err => simp [Parse, h]
    | ok content => simp [Parse, h, markdownToNodes]
  · intro err h
    simp [Parse, h]
  · intro content h
    simp [Parse, h, markdownToNodes]

/-- On a file system without the file, `Parse` returns nil nodes and the error
that reports the failed read. -/
theorem parse_missing_file_example :
    Parse (fun _ => Except.error ⟨"open a.md: no such file or directory".toList⟩) "a.md".toList
      = (none, some ⟨("failed to read markdown file: "
          ++ "open a.md: no such file or directory").toList⟩) := by
  rfl

/-! ### The shape of the output -/

theorem trimSpace_trimmed (s : Str) : trimmed (TrimSpace s) := by
  unfold TrimSpace trimmed
  constructor
  · intro c hc
    have hpre : (s.dropWhile unicode.IsSpace).rdropWhile unicode.IsSpace
        <+: s.dropWhile unicode.IsSpace := List.rdropWhile_prefix _ _
    obtain ⟨r, hr⟩ := hpre
    have hd := List.head?_dropWhile_not unicode.IsSpace s
    cases ht : (s.dropWhile unicode.IsSpace).rdropWhile unicode.IsSpace with
    | nil => simp [ht] at hc
    | cons a t =>
      rw [ht] at hc hr
      simp at hc
      subst hc
      rw [← hr] at hd
      simpa using hd
  · intro c hc
    have hne : (s.dropWhile unicode.IsSpace).rdropWhile unicode.IsSpace ≠ [] := by
      intro h; simp [h] at hc
    have := List.rdropWhile_last_not unicode.IsSpace _ hne
    rw [List.getLast?_eq_getLast _ hne] at hc
    simp at hc
    subst hc
    simpa using this

theorem subnodesList_append (xs ys : List Node) :
    subnodesList (xs ++ ys) = subnodesList xs ++ subnodesList ys := by
  induction xs with
  | nil => simp [subnodesList]
  | cons x xs ih => simp [subnodesList, ih]

theorem subnodesList_singleton (n : Node) : subnodesList [n] = n.subnodes := by
  simp [subnodesList]

theorem mem_subnodesList (nodes : List Node) (m : Node) :
    m ∈ subnodesList nodes ↔ ∃ n ∈ nodes, m ∈ n.subnodes := by
  induction nodes with
  | nil => simp [subnodesList]
  | cons x xs ih => simp [subnodesList, ih]

theorem headingNode_subnodes (tag : Atom) (text : Str) :
    (headingNode tag text).subnodes = [headingNode tag text, textNode text] := by
  simp [headingNode, elemNode, textNode, NewNodeElement, NodeElement.appendChild,
    NodeElement.Tag, NodeElement.Children, Node.subnodes, NodeElement.subnodes, subnodesList]

theorem liNode_subnodes (text : Str) :
    (liNode text).subnodes = [liNode text, textNode text] := by
  simp [liNode, elemNode, textNode, NewNodeElement, NodeElement.appendChild,
    NodeElement.Tag, NodeElement.Children, Node.subnodes, NodeElement.subnodes, subnodesList]

theorem codeBlockNode_subnodes (code : Str) :
    (codeBlockNode code).subnodes =
      [codeBlockNode code, elemNode ((NewNodeElement Atom.Code).appendChild (textNode code)),
        textNode code] := by
  simp [codeBlockNode, elemNode, textNode, NewNodeElement, NodeElement.appendChild,
    NodeElement.Tag, NodeElement.Children, Node.subnodes, NodeElement.subnodes, subnodesList]

theorem items_subnodes_inner (items : List Node) (h : ∀ c ∈ items, ∃ t, c = liNode t)
    (m : Node) (hm : m ∈ subnodesList items) : InnerShape m := by
  obtain ⟨c, hc, hmc⟩ := (mem_subnodesList items m).1 hm
  obtain ⟨t, rfl⟩ := h c hc
  rw [liNode_subnodes] at hmc
  simp at hmc
  rcases hmc with rfl | rfl
  · exact Or.inr (Or.inl ⟨t, rfl⟩)
  · exact Or.inl ⟨t, rfl⟩

theorem topShape_subnodes (n : Node) (h : TopShape n) (m : Node) (hm : m ∈ n.subnodes) :
    m = n ∨ InnerShape m := by
  rcases h with ⟨text, rfl, -, -⟩ | ⟨text, rfl⟩ | ⟨text, rfl⟩ | ⟨code, rfl⟩ | ⟨items, rfl, -, hit⟩
  · rw [headingNode_subnodes] at hm
    simp at hm
    rcases hm with rfl | rfl
    · exact Or.inl rfl
    · exact Or.inr (Or.inl ⟨text, rfl⟩)
  · rw [headingNode_subnodes] at hm
    simp at hm
    rcases hm with rfl | rfl
    · exact Or.inl rfl
    · exact Or.inr (Or.inl ⟨text, rfl⟩)
  · rw [headingNode_subnodes] at hm
    simp at hm
    rcases hm with rfl | rfl
    · exact Or.inl rfl
    · exact Or.inr (Or.inl ⟨text, rfl⟩)
  · rw [codeBlockNode_subnodes] at hm
    simp at hm
    rcases hm with rfl | rfl | rfl
    · exact Or.inl rfl
    · exact Or.inr (Or.inr (Or.inr ⟨code, rfl⟩))
    · exact Or.inr (Or.inl ⟨code, rfl⟩)
  · simp only [Node.subnodes, NodeElement.subnodes, List.mem_cons] at hm
    rcases hm with rfl | hm
    · exact Or.inl rfl
    · exact Or.inr (items_subnodes_inner items hit m hm)

theorem shape_of_subnode (nodes : List Node) (h : ∀ n ∈ nodes, TopShape n) (m : Node)
    (hm : m ∈ subnodesList nodes) : TopShape m ∨ InnerShape m := by
  obtain ⟨n, hn, hmn⟩ := (mem_subnodesList nodes m).1 hm
  rcases topShape_subnodes n (h n hn) m hmn with rfl | hi
  · exact Or.inl (h _ hn)
  · exact Or.inr hi

theorem headingNode_isUl (tag : Atom) (text : Str) :
    (headingNode tag text).isUl = (tag == Atom.Ul) := by
  simp [headingNode, elemNode, Node.isUl, Node.Element, NewNodeElement,
    NodeElement.appendChild, NodeElement.Tag]

theorem codeBlockNode_isUl (code : Str) : (codeBlockNode code).isUl = false := by
  simp [codeBlockNode, elemNode, Node.isUl, Node.Element, NewNodeElement,
    NodeElement.appendChild, NodeElement.Tag]

theorem appendChild_isUl (n c : Node) : (n.appendChild c).isUl = n.isUl := by
  rcases n with ⟨t, _ | ⟨tag, ch⟩⟩ <;>
    simp [Node.appendChild, Node.isUl, Node.Element, NodeElement.appendChild, NodeElement.Tag]

theorem topShape_isUl (n : Node) (h : TopShape n) (hu : n.isUl = true) :
    ∃ items, n = Node.mk [] (some (NodeElement.mk Atom.Ul items)) ∧ items ≠ []
      ∧ ∀ c ∈ items, ∃ t, c = liNode t := by
  rcases h with ⟨text, rfl, -, -⟩ | ⟨text, rfl⟩ | ⟨text, rfl⟩ | ⟨code, rfl⟩ | h
  · simp [headingNode_isUl] at hu
  · simp [headingNode_isUl] at hu
  · simp [headingNode_isUl] at hu
  · simp [codeBlockNode_isUl] at hu
  · exact h

theorem nodes_eq_dropLast_concat (nodes : List Node) (n : Node)
    (h : nodes.getLast? = some n) : nodes.dropLast ++ [n] = nodes :=
  List.dropLast_append_getLast? n (by simp [h])

theorem lastIsUl_true (nodes : List Node) (h : lastIsUl nodes = true) :
    ∃ n, nodes.getLast? = some n ∧ n.isUl = true := by
  unfold lastIsUl at h
  cases hl : nodes.getLast? with
  | none => simp [hl] at h
  | some n => exact ⟨n, rfl, by simpa [hl] using h⟩

theorem shape_concat (nodes : List Node) (n : Node) (h : ∀ x ∈ nodes, TopShape x)
    (hn : TopShape n) : ∀ x ∈ nodes ++ [n], TopShape x := by
  intro x hx
  rcases List.mem_append.1 hx with hx | hx
  · exact h x hx
  · simp at hx; subst hx; exact hn

theorem shape_appendToLast (nodes : List Node) (t : Str) (h : ∀ x ∈ nodes, TopShape x)
    (hu : lastIsUl nodes = true) : ∀ x ∈ appendToLast nodes (liNode t), TopShape x := by
  obtain ⟨n, hlast, hnu⟩ := lastIsUl_true nodes hu
  have hsplit := nodes_eq_dropLast_concat nodes n hlast
  have hn : TopShape n := h n (by rw [← hsplit]; simp)
  obtain ⟨items, rfl, hne, hit⟩ := topShape_isUl n hn hnu
  unfold appendToLast
  rw [hlast]
  apply shape_concat
  · intro x hx
    exact h x (by rw [← hsplit]; exact List.mem_append_left _ hx)
  · right; right; right; right
    refine ⟨items ++ [liNode t], ?_, by simp, ?_⟩
    · simp [Node.appendChild, Node.Element, Node.Text, NodeElement.appendChild,
        NodeElement.Tag, NodeElement.Children]
    · intro c hc
      rcases List.mem_append.1 hc with hc | hc
      · exact hit c hc
      · simp at hc; exact ⟨t, hc⟩

theorem flushParagraph_shape (st : State) (h : ∀ x ∈ st.nodes, TopShape x) :
    ∀ x ∈ (flushParagraph st).nodes, TopShape x := by
  unfold flushParagraph
  dsimp only
  split_ifs with h1 h2
  · apply shape_concat _ _ h
    left
    exact ⟨_, rfl, h2, trimSpace_trimmed _⟩
  · exact h
  · exact h

theorem processLine_shape (st : State) (line : Str) (h : ∀ x ∈ st.nodes, TopShape x) :
    ∀ x ∈ (processLine st line).nodes, TopShape x := by
  have hf := flushParagraph_shape st h
  unfold processLine
  dsimp only
  split_ifs
  · exact shape_concat _ _ h (Or.inr (Or.inr (Or.inr (Or.inl ⟨_, rfl⟩))))
  · exact hf
  · exact h
  · exact shape_concat _ _ hf (Or.inr (Or.inl ⟨_, rfl⟩))
  · exact shape_concat _ _ hf (Or.inr (Or.inr (Or.inl ⟨_, rfl⟩)))
  · exact shape_concat _ _ hf (Or.inr (Or.inr (Or.inl ⟨_, rfl⟩)))
  · exact shape_appendToLast _ _ hf (by assumption)
  · apply shape_concat _ _ hf
    right; right; right; right
    refine ⟨[liNode (listItemText line)], ?_, by simp, ?_⟩
    · simp [elemNode, NewNodeElement, NodeElement.appendChild, NodeElement.Tag,
        NodeElement.Children]
    · intro c hc
      simp at hc
      exact ⟨_, hc⟩
  · exact hf
  · exact h

theorem foldl_shape (ls : List Str) (st : State) (h : ∀ x ∈ st.nodes, TopShape x) :
    ∀ x ∈ (ls.foldl processLine st).nodes, TopShape x := by
  induction ls generalizing st with
  | nil => exact h
  | cons a rest ih => exact ih _ (processLine_shape st a h)

theorem markdownToNodes_shape (content : Str) :
    ∀ x ∈ (markdownToNodes content).1, TopShape x := by
  unfold markdownToNodes
  exact flushParagraph_shape _ (foldl_shape _ _ (by intro x hx; simp [State.init] at hx))

theorem noAdjacentUl_concat (nodes : List Node) (n : Node) (h : NoAdjacentUl nodes)
    (hn : lastIsUl nodes = false ∨ n.isUl = false) : NoAdjacentUl (nodes ++ [n]) := by
  unfold NoAdjacentUl at h ⊢
  rw [List.chain'_append]
  refine ⟨h, List.chain'_singleton _, ?_⟩
  intro x hx y hy
  simp at hy
  subst hy
  rintro ⟨hxu, hyu⟩
  rcases hn with hn | hn
  · simp [lastIsUl, Option.mem_def.1 hx, hxu] at hn
  · simp [hn] at hyu

theorem noAdjacentUl_appendToLast (nodes : List Node) (c : Node) (h : NoAdjacentUl nodes) :
    NoAdjacentUl (appendToLast nodes c) := by
  unfold appendToLast
  cases hlast : nodes.getLast? with
  | none => simpa using h
  | some n =>
    have hsplit := nodes_eq_dropLast_concat nodes n hlast
    dsimp only
    unfold NoAdjacentUl at h ⊢
    rw [← hsplit, List.chain'_append] at h
    rw [List.chain'_append]
    refine ⟨h.1, List.chain'_singleton _, ?_⟩
    intro x hx y hy
    simp at hy
    subst hy
    rw [appendChild_isUl]
    exact h.2.2 x hx n (by simp)

theorem flushParagraph_noAdjacentUl (st : State) (h : NoAdjacentUl st.nodes) :
    NoAdjacentUl (flushParagraph st).nodes := by
  unfold flushParagraph
  dsimp only
  split_ifs
  · exact noAdjacentUl_concat _ _ h (Or.inr (by
      have := headingNode_isUl Atom.P
        (TrimSpace (Join st.currentParagraph " ".toList))
      simpa [headingNode] using this))
  · exact h
  · exact h

theorem processLine_noAdjacentUl (st : State) (line : Str) (h : NoAdjacentUl st.nodes) :
    NoAdjacentUl (processLine st line).nodes := by
  have hf := flushParagraph_noAdjacentUl st h
  unfold processLine
  dsimp only
  split_ifs with h1 h2 h3 h4 h5 h6 h7 h8
  · exact noAdjacentUl_concat _ _ h (Or.inr (codeBlockNode_isUl _))
  · exact hf
  · exact h
  · exact noAdjacentUl_concat _ _ hf (Or.inr (by simp [headingNode_isUl]))
  · exact noAdjacentUl_concat _ _ hf (Or.inr (by simp [headingNode_isUl]))
  · exact noAdjacentUl_concat _ _ hf (Or.inr (by simp [headingNode_isUl]))
  · exact noAdjacentUl_appendToLast _ _ hf
  · exact noAdjacentUl_concat _ _ hf (Or.inl (by simpa using h8))
  · exact hf
  · exact h

theorem foldl_noAdjacentUl (ls : List Str) (st : State) (h : NoAdjacentUl st.nodes) :
    NoAdjacentUl (ls.foldl processLine st).nodes := by
  induction ls generalizing st with
  | nil => exact h
  | cons a rest ih => exact ih _ (processLine_noAdjacentUl st a h)

theorem markdownToNodes_noAdjacentUl (content : Str) :
    NoAdjacentUl (markdownToNodes content).1 := by
  unfold markdownToNodes
  exact flushParagraph_noAdjacentUl _ (foldl_noAdjacentUl _ _ (by simp [State.init, NoAdjacentUl]))

/-- C14: every node of the output, at every depth, is exactly one of a text
leaf (no element) and an element (empty text), and the tag of every element is
one of `p`, `h3`, `h4`, `ul`, `li`, `pre`, `code`. -/
theorem output_nodes_well_formed (content : Str) (n : Node)
    (hn : n ∈ subnodesList (markdownToNodes content).1) :
    ((n.isTextLeaf = true ∧ n.isElementNode = false)
      ∨ (n.isTextLeaf = false ∧ n.isElementNode = true))
    ∧ ∀ e, n.Element = some e →
        e.Tag ∈ [Atom.P, Atom.H3, Atom.H4, Atom.Ul, Atom.Li, Atom.Pre, Atom.Code] := by
  rcases shape_of_subnode _ (markdownToNodes_shape content) n hn with h | h
  · rcases h with ⟨text, rfl, -, -⟩ | ⟨text, rfl⟩ | ⟨text, rfl⟩ | ⟨code, rfl⟩ | ⟨items, rfl, -, -⟩ <;>
      simp [headingNode, codeBlockNode, elemNode, NewNodeElement, NodeElement.appendChild,
        NodeElement.Tag, Node.isTextLeaf, Node.isElementNode, Node.Element, Node.Text]
  · rcases h with ⟨t, rfl⟩ | ⟨t, rfl⟩ | ⟨code, rfl⟩ <;>
      simp [liNode, textNode, elemNode, NewNodeElement, NodeElement.appendChild,
        NodeElement.Tag, Node.isTextLeaf, Node.isElementNode, Node.Element, Node.Text]

/-- Witness of `output_nodes_well_formed`: the `code` element inside the code
block of a document that also has a heading, a paragraph and a list. -/
theorem output_nodes_well_formed_witness :
    (((Node.mk [] (some (NodeElement.mk Atom.Code [Node.mk "x".toList none]))).isTextLeaf = true
        ∧ (Node.mk [] (some (NodeElement.mk Atom.Code
            [Node.mk "x".toList none]))).isElementNode = false)
      ∨ ((Node.mk [] (some (NodeElement.mk Atom.Code [Node.mk "x".toList none]))).isTextLeaf
          = false
        ∧ (Node.mk [] (some (NodeElement.mk Atom.Code
            [Node.mk "x".toList none]))).isElementNode = true))
    ∧ ∀ e, (Node.mk [] (some (NodeElement.mk Atom.Code [Node.mk "x".toList none]))).Element
          = some e →
        e.Tag ∈ [Atom.P, Atom.H3, Atom.H4, Atom.Ul, Atom.Li, Atom.Pre, Atom.Code] :=
  output_nodes_well_formed "# T\ntext\n- a\n```\nx\n```".toList
    (Node.mk [] (some (NodeElement.mk Atom.Code [Node.mk "x".toList none])))
    (by
      rw [show subnodesList (markdownToNodes "# T\ntext\n- a\n```\nx\n```".toList).1 =
        [headingNode Atom.H3 "T".toList, textNode "T".toList,
         headingNode Atom.P "text".toList, textNode "text".toList,
         Node.mk [] (some (NodeElement.mk Atom.Ul [liNode "a".toList])),
         liNode "a".toList, textNode "a".toList,
         codeBlockNode "x".toList,
         Node.mk [] (some (NodeElement.mk Atom.Code [Node.mk "x".toList none])),
         textNode "x".toList] from rfl]
      simp)

/-- C17: the output never has two neighbouring top-level unordered lists, and
every unordered list in it, at any depth, has at least one child, each child
being an `li` element whose single child is a text leaf. -/
theorem output_lists_merged_and_nonempty (content : Str) :
    List.Chain' (fun a b => ¬(a.isUl = true ∧ b.isUl = true)) (markdownToNodes content).1
    ∧ ∀ n ∈ subnodesList (markdownToNodes content).1, n.isUl = true →
        ∃ items, n.Element = some (NodeElement.mk Atom.Ul items) ∧ items ≠ []
          ∧ ∀ c ∈ items, ∃ t,
              c = Node.mk [] (some (NodeElement.mk Atom.Li [Node.mk t none])) := by
  refine ⟨markdownToNodes_noAdjacentUl content, ?_⟩
  intro n hn hu
  rcases shape_of_subnode _ (markdownToNodes_shape content) n hn with h | h
  · obtain ⟨items, rfl, hne, hit⟩ := topShape_isUl n h hu
    refine ⟨items, rfl, hne, ?_⟩
    intro c hc
    obtain ⟨t, rfl⟩ := hit c hc
    exact ⟨t, by simp [liNode, textNode, elemNode, NewNodeElement, NodeElement.appendChild,
      NodeElement.Tag, NodeElement.Children]⟩
  · rcases h with ⟨t, rfl⟩ | ⟨t, rfl⟩ | ⟨code, rfl⟩ <;>
      simp [liNode, textNode, elemNode, NewNodeElement, NodeElement.appendChild,
        NodeElement.Tag, Node.isUl, Node.Element] at hu

theorem processLine_buffer_not_blank (st : State) (line : Str)
    (h : ∀ l ∈ st.currentParagraph, isBlank l = false) :
    ∀ l ∈ (processLine st line).currentParagraph, isBlank l = false := by
  have hf : ∀ l ∈ (flushParagraph st).currentParagraph, isBlank l = false := by
    rw [flushParagraph_currentParagraph]; simp
  unfold processLine
  dsimp only
  split_ifs with h1 h2 h3 h4 h5 h6 h7 h8 h9
  · exact h
  · exact hf
  · exact h
  · exact hf
  · exact hf
  · exact hf
  · exact hf
  · exact hf
  · exact hf
  · intro l hl
    rcases List.mem_append.1 hl with hl | hl
    · exact h l hl
    · simp at hl
      subst hl
      by_contra hb
      exact h9 ((trimSpace_eq_nil_iff l).2 (by simpa using hb))

theorem foldl_buffer_not_blank (ls : List Str) (st : State)
    (h : ∀ l ∈ st.currentParagraph, isBlank l = false) :
    ∀ l ∈ (ls.foldl processLine st).currentParagraph, isBlank l = false := by
  induction ls generalizing st with
  | nil => exact h
  | cons a rest ih => exact ih _ (processLine_buffer_not_blank st a h)

/-- C18: at every point of the loop the paragraph buffer holds no blank line;
so a flush of a non-empty buffer never takes the discard branch, it appends
exactly one paragraph node; and the text of every paragraph of the output is
non-empty, without leading or trailing white space. -/
theorem paragraph_buffer_never_blank :
    (∀ lines : List Str,
        ∀ l ∈ (lines.foldl processLine State.init).currentParagraph, isBlank l = false)
    ∧ (∀ lines : List Str, (lines.foldl processLine State.init).currentParagraph ≠ [] →
        TrimSpace (Join (lines.foldl processLine State.init).currentParagraph " ".toList) ≠ []
        ∧ flushParagraph (lines.foldl processLine State.init) =
          { lines.foldl processLine State.init with
            nodes := (lines.foldl processLine State.init).nodes ++
              [Node.mk [] (some (NodeElement.mk Atom.P [Node.mk (TrimSpace (Join
                (lines.foldl processLine State.init).currentParagraph " ".toList)) none]))],
            currentParagraph := [] })
    ∧ (∀ content : Str, ∀ n ∈ subnodesList (markdownToNodes content).1, ∀ ch,
        n.Element = some (NodeElement.mk Atom.P ch) →
          ∃ text, ch = [Node.mk text none] ∧ text ≠ [] ∧ trimmed text) := by
  refine ⟨?_, ?_, ?_⟩
  · intro lines
    exact foldl_buffer_not_blank lines State.init (by simp [State.init])
  · intro lines hne
    have hb := foldl_buffer_not_blank lines State.init (by simp [State.init])
    have ht := trimSpace_join_ne_nil _ " ".toList hne hb
    refine ⟨ht, ?_⟩
    have hpos : 0 < (lines.foldl processLine State.init).currentParagraph.length :=
      List.length_pos.2 hne
    simp only [String.toList] at ht
    simp [flushParagraph, hpos, ht, elemNode, textNode, NewNodeElement,
      NodeElement.appendChild, NodeElement.Tag, NodeElement.Children]
  · intro content n hn ch he
    rcases shape_of_subnode _ (markdownToNodes_shape content) n hn with h | h
    · rcases h with ⟨text, rfl, h1, h2⟩ | ⟨text, rfl⟩ | ⟨text, rfl⟩ | ⟨code, rfl⟩
          | ⟨items, rfl, -, -⟩
      · refine ⟨text, ?_, h1, h2⟩
        simp [headingNode, textNode, elemNode, NewNodeElement, NodeElement.appendChild,
          NodeElement.Tag, NodeElement.Children, Node.Element] at he
        exact he.symm
      all_goals
        simp [headingNode, codeBlockNode, elemNode, NewNodeElement, NodeElement.appendChild,
          NodeElement.Tag, Node.Element] at he
    · rcases h with ⟨t, rfl⟩ | ⟨t, rfl⟩ | ⟨code, rfl⟩ <;>
        simp [liNode, textNode, elemNode, NewNodeElement, NodeElement.appendChild,
          NodeElement.Tag, Node.Element] at he

/-! ### Splitting a text into lines -/

theorem index_newline_spec (s : Str) :
    (Index s ['\n'] = none → '\n' ∉ s)
    ∧ ∀ m, Index s ['\n'] = some m →
        '\n' ∉ s.take m ∧ s = s.take m ++ '\n' :: s.drop (m + 1) := by
  induction s with
  | nil => simp [Index]
  | cons c cs ih =>
    by_cases hc : c = '\n'
    · subst hc
      simp [Index, HasPrefix, List.isPrefixOf]
    · have hc2 : ¬ ('\n' = c) := fun e => hc e.symm
      have hidx : Index (c :: cs) ['\n'] = (Index cs ['\n']).map (· + 1) := by
        simp [Index, HasPrefix, List.isPrefixOf, hc2]
      rw [hidx]
      constructor
      · intro h
        have h0 : Index cs ['\n'] = none := by simpa using h
        simp [hc2, ih.1 h0]
      · intro m hm
        obtain ⟨k, hk, rfl⟩ := Option.map_eq_some'.1 hm
        obtain ⟨h1, h2⟩ := ih.2 k hk
        refine ⟨by simp [hc2, h1], ?_⟩
        simp only [List.take_succ_cons, List.drop_succ_cons, List.cons_append]
        rw [← h2]

theorem splitN_spec (n : Nat) (s : Str) (hn : s.length + 1 ≤ n) :
    SplitN s ['\n'] n ≠ [] ∧ (∀ l ∈ SplitN s ['\n'] n, '\n' ∉ l)
      ∧ Join (SplitN s ['\n'] n) ['\n'] = s := by
  induction n generalizing s with
  | zero => omega
  | succ k ih =>
    cases k with
    | zero =>
      have : s = [] := List.length_eq_zero.1 (by omega)
      subst this
      simp [SplitN, Join]
    | succ k =>
      cases hi : Index s ['\n'] with
      | none =>
        have := (index_newline_spec s).1 hi
        simp [SplitN, hi, Join, this]
      | some m =>
        obtain ⟨h1, h2⟩ := (index_newline_spec s).2 m hi
        have hlen : (s.drop (m + 1)).length + 1 ≤ k + 1 := by
          have := congrArg List.length h2
          simp at this
          simp
          omega
        obtain ⟨r1, r2, r3⟩ := ih (s.drop (m + 1)) hlen
        simp only [SplitN, hi, List.length_singleton]
        refine ⟨by simp, ?_, ?_⟩
        · intro l hl
          rcases List.mem_cons.1 hl with rfl | hl
          · exact h1
          · exact r2 l hl
        · cases hr : SplitN (List.drop (m + 1) s) ['\n'] (k + 1) with
          | nil => exact absurd hr r1
          | cons x xs =>
            rw [hr] at r3
            simp only [Join]
            rw [r3]
            simpa using h2.symm

theorem split_spec (s : Str) :
    Split s "\n".toList ≠ [] ∧ (∀ l ∈ Split s "\n".toList, newlineFree l = true)
      ∧ Join (Split s "\n".toList) "\n".toList = s := by
  have := splitN_spec (s.length + 1) s le_rfl
  simpa [Split, newlineFree] using this

theorem join_append (xs ys : List Str) (sep : Str) (hx : xs ≠ []) (hy : ys ≠ []) :
    Join (xs ++ ys) sep = Join xs sep ++ sep ++ Join ys sep := by
  induction xs with
  | nil => exact absurd rfl hx
  | cons a rest ih =>
    cases rest with
    | nil =>
      cases ys with
      | nil => exact absurd rfl hy
      | cons y ys => simp [Join]
    | cons b rest =>
      have := ih (by simp)
      simp only [List.cons_append] at this ⊢
      simp [Join, this]

theorem split_around_line (a h b : Str) (hh : newlineFree h = true) :
    Split (a ++ "\n".toList ++ h ++ "\n".toList ++ b) "\n".toList =
      Split a "\n".toList ++ [h] ++ Split b "\n".toList := by
  obtain ⟨a1, a2, a3⟩ := split_spec a
  obtain ⟨b1, b2, b3⟩ := split_spec b
  have hj : Join (Split a "\n".toList ++ [h] ++ Split b "\n".toList) "\n".toList =
      a ++ "\n".toList ++ h ++ "\n".toList ++ b := by
    rw [join_append _ _ _ (by simp) b1, join_append _ _ _ a1 (by simp), a3, b3]
    simp [Join]
  rw [← hj]
  apply split_join _ (by simp)
  intro l hl
  simp only [List.mem_append, List.mem_singleton] at hl
  rcases hl with (hl | rfl) | hl
  · exact (newlineFree_iff l).1 (a2 l hl)
  · exact (newlineFree_iff l).1 hh
  · exact (newlineFree_iff l).1 (b2 l hl)

/-! ### Nodes in front of a state -/

theorem lastIsUl_append (pre x : List Node) (hpre : lastIsUl pre = false) :
    lastIsUl (pre ++ x) = lastIsUl x := by
  cases x using List.reverseRecOn with
  | nil => rw [List.append_nil, hpre]; rfl
  | append_singleton xs y =>
    rw [← List.append_assoc, lastIsUl_concat, lastIsUl_concat]

theorem appendToLast_append (pre x : List Node) (c : Node) (hx : x ≠ []) :
    appendToLast (pre ++ x) c = pre ++ appendToLast x c := by
  cases x using List.reverseRecOn with
  | nil => exact absurd rfl hx
  | append_singleton xs y =>
    rw [← List.append_assoc, appendToLast_concat, appendToLast_concat, List.append_assoc]

theorem lastIsUl_ne_nil (x : List Node) (h : lastIsUl x = true) : x ≠ [] := by
  intro e; subst e; simp [lastIsUl] at h

theorem flushParagraph_withPre (pre : List Node) (st : State) :
    flushParagraph (st.withPre pre) = (flushParagraph st).withPre pre := by
  unfold flushParagraph State.withPre
  dsimp only
  split_ifs <;> simp

theorem processLine_withPre (pre : List Node) (hpre : lastIsUl pre = false) (st : State)
    (line : Str) :
    processLine (st.withPre pre) line = (processLine st line).withPre pre := by
  unfold processLine
  simp only [flushParagraph_withPre]
  have hin : (st.withPre pre).inCodeBlock = st.inCodeBlock := rfl
  have hcc : (st.withPre pre).codeContent = st.codeContent := rfl
  have hnodes : ∀ s : State, (s.withPre pre).nodes = pre ++ s.nodes := fun _ => rfl
  simp only [hin, hcc, hnodes, lastIsUl_append _ _ hpre]
  split_ifs with h1 h2 h3 h4 h5 h6 h7 h8 h9 <;>
    first
    | rfl
    | (simp only [State.withPre, List.append_assoc]; done)
    | (simp [State.withPre]; done)
    | (simp only [State.withPre]; rw [appendToLast_append _ _ _ (lastIsUl_ne_nil _ h8)])

theorem foldl_withPre (pre : List Node) (hpre : lastIsUl pre = false) (ls : List Str)
    (st : State) :
    ls.foldl processLine (st.withPre pre) = (ls.foldl processLine st).withPre pre := by
  induction ls generalizing st with
  | nil => rfl
  | cons a rest ih => rw [List.foldl_cons, processLine_withPre pre hpre, ih, List.foldl_cons]

theorem processLine_idle (st : State) (line : Str)
    (h : st.inCodeBlock = false → st.codeContent = [] ∧ st.codeLanguage = []) :
    (processLine st line).inCodeBlock = false →
      (processLine st line).codeContent = [] ∧ (processLine st line).codeLanguage = [] := by
  have hf : (flushParagraph st).inCodeBlock = false →
      (flushParagraph st).codeContent = [] ∧ (flushParagraph st).codeLanguage = [] := by
    unfold flushParagraph
    dsimp only
    split_ifs <;> exact h
  unfold processLine
  dsimp only
  split_ifs with h1 h2 h3 h4 h5 h6 h7 h8 h9 <;> first | exact hf | exact h | simp_all

theorem foldl_idle (ls : List Str) (st : State)
    (h : st.inCodeBlock = false → st.codeContent = [] ∧ st.codeLanguage = []) :
    (ls.foldl processLine st).inCodeBlock = false →
      (ls.foldl processLine st).codeContent = []
        ∧ (ls.foldl processLine st).codeLanguage = [] := by
  induction ls generalizing st with
  | nil => exact h
  | cons a rest ih => exact ih _ (processLine_idle st a h)

theorem processLine_heading (st : State) (h : Str) (hhead : isHeadingLine h = true)
    (hc : st.inCodeBlock = false) :
    processLine st h =
      { flushParagraph st with nodes := (flushParagraph st).nodes ++ [headingLineNode h] } := by
  have hf : HasPrefix h "```".toList = false := by
    simp only [isHeadingLine, Bool.or_eq_true, hasPrefix_iff] at hhead
    rcases hhead with (⟨t, rfl⟩ | ⟨t, rfl⟩) | ⟨t, rfl⟩ <;> simp [HasPrefix, List.isPrefixOf]
  simp only [String.toList] at hf
  simp only [isHeadingLine, Bool.or_eq_true, String.toList] at hhead
  unfold processLine headingLineNode
  simp only [String.toList, hf, hc]
  by_cases h1 : HasPrefix h ['#', ' '] = true
  · simp [h1]
  · by_cases h2 : HasPrefix h ['#', '#', ' '] = true
    · simp [h1, h2]
    · have h3 : HasPrefix h ['#', '#', '#', ' '] = true := by tauto
      simp [h1, h2, h3]

theorem headingLineNode_isUl (h : Str) : (headingLineNode h).isUl = false := by
  unfold headingLineNode
  split_ifs <;> simp [headingNode_isUl]

theorem flushParagraph_codeLanguage (st : State) :
    (flushParagraph st).codeLanguage = st.codeLanguage := by
  unfold flushParagraph
  dsimp only
  split_ifs <;> rfl

theorem processLine_heading_idle (st : State) (h : Str) (hhead : isHeadingLine h = true)
    (hc : st.inCodeBlock = false) (hcc : st.codeContent = []) (hcl : st.codeLanguage = []) :
    processLine st h =
      State.init.withPre ((flushParagraph st).nodes ++ [headingLineNode h]) := by
  rw [processLine_heading st h hhead hc]
  have h1 := flushParagraph_currentParagraph st
  have h2 := flushParagraph_inCodeBlock st
  have h3 := flushParagraph_codeContent st
  have h4 := flushParagraph_codeLanguage st
  rw [hc] at h2
  rw [hcc] at h3
  rw [hcl] at h4
  generalize flushParagraph st = s at h1 h2 h3 h4 ⊢
  rcases s with ⟨nodes, cp, icb, cc, cl⟩
  simp only at h1 h2 h3 h4
  subst h1 h2 h3 h4
  simp [State.withPre, State.init]

/-- C19: a heading line is a hard block boundary.  When the lines of `a` hold an
even number of fence lines, the nodes of `a`, a newline, the heading line `h`, a
newline and `b` are the nodes of `a`, then the heading node of `h` (the single
node `h` gives on its own), then the nodes of `b`. -/
theorem heading_line_block_boundary (a b h : Str) (hh : newlineFree h = true)
    (hhead : isHeadingLine h = true)
    (heven : (Split a "\n".toList).countP isFenceLine % 2 = 0) :
    markdownToNodes (a ++ "\n".toList ++ h ++ "\n".toList ++ b) =
      ((markdownToNodes a).1 ++ [headingLineNode h] ++ (markdownToNodes b).1, none)
    ∧ markdownToNodes h = ([headingLineNode h], none) := by
  constructor
  · have hin : ((Split a "\n".toList).foldl processLine State.init).inCodeBlock = false :=
      (foldl_inCodeBlock _ State.init).1 heven
    have hidle := foldl_idle (Split a "\n".toList) State.init (fun _ => ⟨rfl, rfl⟩) hin
    have hpre : lastIsUl ((flushParagraph
        ((Split a "\n".toList).foldl processLine State.init)).nodes ++ [headingLineNode h])
        = false := by
      rw [lastIsUl_concat, headingLineNode_isUl]
    unfold markdownToNodes
    simp only
    rw [split_around_line a h b hh, List.foldl_append, List.foldl_append]
    simp only [List.foldl_cons, List.foldl_nil]
    rw [processLine_heading_idle _ h hhead hin hidle.1 hidle.2, foldl_withPre _ hpre,
      flushParagraph_withPre]
    simp [State.withPre]
  · rw [markdownToNodes_single h hh, processLine_heading_idle _ h hhead rfl rfl rfl]
    simp [State.withPre, State.init, flushParagraph]

/-- Witness of `heading_line_block_boundary`: a `## ` heading between a
paragraph with a closed code block and a list. -/
theorem heading_line_block_boundary_witness :
    markdownToNodes "intro\n```\nx\n```\ntail\n## Two\n- a\n- b".toList =
      ((markdownToNodes "intro\n```\nx\n```\ntail".toList).1
        ++ [Node.mk [] (some (NodeElement.mk Atom.H4 [Node.mk "Two".toList none]))]
        ++ (markdownToNodes "- a\n- b".toList).1, none)
    ∧ markdownToNodes "## Two".toList =
      ([Node.mk [] (some (NodeElement.mk Atom.H4 [Node.mk "Two".toList none]))], none) :=
  heading_line_block_boundary "intro\n```\nx\n```\ntail".toList "- a\n- b".toList
    "## Two".toList (by decide) (by decide) (by decide)

/-! ## Statements about the commands -/

/-- C15, as stated, fails: the request `page delete` builds has the title
`Deleted` and one paragraph `[deleted]` as content, neither of them empty. -/
theorem pageDeleteRequest_not_empty_counterexample :
    pageDeleteRequest (fun _ => none) "token".toList "Sample-Page-12-15".toList =
      .ok { AccessToken := "token".toList, Path := "Sample-Page-12-15".toList,
            Title := "Deleted".toList,
            Content := [Node.mk [] (some (NodeElement.mk Atom.P
              [Node.mk "[deleted]".toList none]))],
            AuthorName := none, AuthorURL := none, ReturnContent := false }
    ∧ "Deleted".toList ≠ ([] : Str)
    ∧ [Node.mk [] (some (NodeElement.mk Atom.P [Node.mk "[deleted]".toList none]))]
        ≠ ([] : List Node) := by
  refine ⟨rfl, by decide, by simp⟩

/-- C15, amended: when the library accepts the title `Deleted`, the request
`page delete <path>` builds for the path has the placeholder title `Deleted`,
as content the single paragraph `[deleted]`, and author name and author URL
unset (nil). -/
theorem pageDeleteRequest_placeholder (titleError : Str → Option GoError)
    (accessToken path : Str) (h : titleError "Deleted".toList = none) :
    pageDeleteRequest titleError accessToken path =
      .ok { AccessToken := accessToken, Path := path, Title := "Deleted".toList,
            Content := [Node.mk [] (some (NodeElement.mk Atom.P
              [Node.mk "[deleted]".toList none]))],
            AuthorName := none, AuthorURL := none, ReturnContent := false } := by
  simp only [String.toList] at h
  simp [pageDeleteRequest, NewTitle, h, elemNode, textNode, NewNodeElement,
    NodeElement.appendChild, NodeElement.Tag, NodeElement.Children]

/-- Witness of `pageDeleteRequest_placeholder`: a library that refuses only the
empty title. -/
theorem pageDeleteRequest_placeholder_witness :
    pageDeleteRequest (fun raw => if raw = [] then some ⟨"empty".toList⟩ else none)
        "token".toList "Sample-Page-12-15".toList =
      .ok { AccessToken := "token".toList, Path := "Sample-Page-12-15".toList,
            Title := "Deleted".toList,
            Content := [Node.mk [] (some (NodeElement.mk Atom.P
              [Node.mk "[deleted]".toList none]))],
            AuthorName := none, AuthorURL := none, ReturnContent := false } :=
  pageDeleteRequest_placeholder _ _ _ (by simp)

/-- C16 fails on the code: `retry` does not use `attempts`.  With an operation
that fails at every call and a policy that grants five waits, `retry(fn, 3)`
calls the operation six times; the result is the same for every `attempts`. -/
theorem retry_ignores_attempts :
    retry (fun _ => some ⟨"timeout".toList⟩) 3 5 = (6, some ⟨"timeout".toList⟩)
    ∧ ¬ (retry (fun _ => some ⟨"timeout".toList⟩) 3 5).1 ≤ 3
    ∧ ∀ (fn : Nat → Option GoError) (attempts attempts2 : Int) (waits : Nat),
        retry fn attempts waits = retry fn attempts2 waits := by
  refine ⟨rfl, by decide, fun _ _ _ _ => rfl⟩

/-- C20 fails on the code: `GetToken` returns a token file of three bytes as it
is, and the slice `accessToken[:10]` of the verbose output is out of range for
it, as for the empty token; a token of ten bytes or more is printed. -/
theorem tokenPreview_short_token_panics :
    GetToken (.ok "/home/u/.telegraphcl/telegraph.token".toList)
        (fun _ => some (.ok "abc".toList)) = ("abc".toList, none)
    ∧ tokenPreview "abc".toList = none
    ∧ GetToken (.ok "/home/u/.telegraphcl/telegraph.token".toList)
        (fun _ => some (.ok [])) = ([], none)
    ∧ tokenPreview [] = none
    ∧ tokenPreview "0123456789abcdef".toList = some "0123456789...".toList := by
  refine ⟨rfl, by decide, rfl, by decide, by decide⟩

theorem backoffRetry_calls_le (operation : Nat → Option GoError) (waits calls : Nat) :
    (backoffRetry operation waits calls).1 ≤ calls + waits + 1 := by
  induction waits generalizing calls with
  | zero => cases h : operation calls <;> simp [backoffRetry, h]
  | succ w ih =>
    cases h : operation calls with
    | none => simp [backoffRetry, h]
    | some err =>
      simp only [backoffRetry, h]
      have := ih (calls + 1)
      omega

/-- What holds of `retry` in place of the attempt budget: the operation is
called at most once more than the policy grants waits. -/
theorem retry_calls_le_waits (fn : Nat → Option GoError) (attempts : Int) (waits : Nat) :
    (retry fn attempts waits).1 ≤ waits + 1 := by
  have := backoffRetry_calls_le fn waits 0
  simpa [retry] using this

/-- What holds of the token preview: it is defined exactly for the tokens of
ten characters or more. -/
theorem tokenPreview_isSome_iff (accessToken : Str) :
    (tokenPreview accessToken).isSome = true ↔ 10 ≤ accessToken.length := by
  simp [tokenPreview, sliceTo]

end Telegraph
